import Mathlib

/-!
Verification of the schema comparison and migration engine of `pgbranch`
(package `internal/schema`): the in-memory schema data model, the structural
diff algorithm (`Diff`), the dependency-aware change ordering
(`OrderChanges`), the SQL generator (`GenerateChange`, `quoteIdent`,
`quoteLiteral`), the pre-flight validator (`ValidateChanges`) and the
transactional applier (`Applier.Apply`, `Applier.DryRun`).

Go maps (`map[string]*T`) are modelled as association lists
(`List (String × T)`): the list order stands for the (randomized) iteration
order of the Go map, and two association lists that are permutations of each
other with the same bindings represent the same Go map.  Pointers are
modelled by values.  Go byte strings are modelled by `String`; every byte
comparison performed by the code (`isSimpleIdent`) is on ASCII ranges, where
the two views agree character by character.
-/

set_option maxHeartbeats 1000000

namespace Pgbranch

/-- Association-list model of a Go `map[string]α`. -/
abbrev SMap (α : Type) : Type := List (String × α)

/-- Go map indexing `m[k]` (key equality); returns the first binding. -/
def SMap.find? {α : Type} : SMap α → String → Option α
  | [], _ => none
  | (k, a) :: rest, n => if k = n then some a else SMap.find? rest n

/-- The keys of a map representation. -/
def SMap.keys {α : Type} (m : SMap α) : List String := m.map Prod.fst

/-- A legal Go map representation binds each key once. -/
def SMap.NodupKeys {α : Type} (m : SMap α) : Prop := m.keys.Nodup

/-- `Column` from `schema.go`. `*int` / `*string` fields become `Option`. -/
structure Column where
  name : String
  dataType : String
  isNullable : Bool
  defaultValue : Option String
  position : Int
  charMaxLength : Option Int
  numericPrecision : Option Int
  numericScale : Option Int
  isArray : Bool
  elementType : String
deriving DecidableEq, Repr

/-- `Index` from `schema.go`. -/
structure Index where
  name : String
  tableName : String
  columns : List String
  isUnique : Bool
  isPrimary : Bool
  type : String
  definition : String
deriving DecidableEq, Repr

/-- `ConstraintType` is a Go string type; `ConstraintForeignKey` etc. are
string constants. -/
abbrev ConstraintType : Type := String

def ConstraintPrimaryKey : ConstraintType := "PRIMARY KEY"

def ConstraintForeignKey : ConstraintType := "FOREIGN KEY"

def ConstraintUnique : ConstraintType := "UNIQUE"

def ConstraintCheck : ConstraintType := "CHECK"

def ConstraintExclusion : ConstraintType := "EXCLUDE"

/-- `Constraint` from `schema.go`. -/
structure Constraint where
  name : String
  type : ConstraintType
  tableName : String
  columns : List String
  definition : String
  refTable : String
  refColumns : List String
  onDelete : String
  onUpdate : String
deriving DecidableEq, Repr

/-- `Enum` from `schema.go` (`Values` is an ordered slice). -/
structure Enum where
  name : String
  schema : String
  values : List String
deriving DecidableEq, Repr

/-- `Function` from `schema.go`. -/
structure Function where
  name : String
  schema : String
  arguments : String
  returnType : String
  language : String
  definition : String
  bodyHash : String
deriving DecidableEq, Repr

/-- `Table` from `schema.go`; its three maps become association lists. -/
structure Table where
  name : String
  schema : String
  columns : SMap Column
  indexes : SMap Index
  constraints : SMap Constraint
deriving DecidableEq, Repr

/-- `Schema` from `schema.go`. -/
structure Schema where
  name : String
  tables : SMap Table
  enums : SMap Enum
  functions : SMap Function
deriving DecidableEq, Repr

/-- `Table.FullName`: unqualified for the empty or `public` schema. -/
def Table.fullName (t : Table) : String :=
  if t.schema = "" ∨ t.schema = "public" then t.name
  else t.schema ++ "." ++ t.name

/-- `Enum.FullName`. -/
def Enum.fullName (e : Enum) : String :=
  if e.schema = "" ∨ e.schema = "public" then e.name
  else e.schema ++ "." ++ e.name

/-- `Function.Signature`: `name(arguments)`. -/
def Function.signature (f : Function) : String :=
  f.name ++ "(" ++ f.arguments ++ ")"

/-- `Function.FullName`: the signature, schema-qualified unless the schema
is empty or `public`. -/
def Function.fullName (f : Function) : String :=
  if f.schema = "" ∨ f.schema = "public" then f.signature
  else f.schema ++ "." ++ f.signature

/-- `Column.FullType` from `schema.go`: renders varchar/char length,
numeric precision/scale and array suffix. -/
def Column.fullType (c : Column) : String :=
  let typ := c.dataType
  let typ :=
    match c.charMaxLength with
    | some n =>
        if typ.startsWith "character varying" then
          "varchar(" ++ toString n ++ ")"
        else if typ = "character" then
          "char(" ++ toString n ++ ")"
        else typ
    | none => typ
  let typ :=
    match c.numericPrecision with
    | some p =>
        match c.numericScale with
        | some s =>
            if s > 0 then "numeric(" ++ toString p ++ "," ++ toString s ++ ")"
            else if typ = "numeric" then "numeric(" ++ toString p ++ ")"
            else typ
        | none =>
            if typ = "numeric" then "numeric(" ++ toString p ++ ")"
            else typ
    | none => typ
  if c.isArray then typ ++ "[]" else typ

/-- `Column.Equals`: name, full type, nullability and default must agree. -/
def Column.equals (c other : Column) : Bool :=
  if c.name ≠ other.name then false
  else if c.fullType ≠ other.fullType then false
  else if c.isNullable ≠ other.isNullable then false
  else
    match c.defaultValue, other.defaultValue with
    | none, none => true
    | none, some _ => false
    | some _, none => false
    | some a, some b => a = b

/-- `Index.Equals`. -/
def Index.equals (i other : Index) : Bool :=
  if i.name ≠ other.name then false
  else if i.isUnique ≠ other.isUnique then false
  else if i.isPrimary ≠ other.isPrimary then false
  else if i.type ≠ other.type then false
  else if i.columns.length ≠ other.columns.length then false
  else i.columns = other.columns

/-- `Constraint.Equals`. -/
def Constraint.equals (c other : Constraint) : Bool :=
  if c.name ≠ other.name then false
  else if c.type ≠ other.type then false
  else c.definition = other.definition

/-- `Enum.Equals`: same name and identical value list. -/
def Enum.equals (e other : Enum) : Bool :=
  if e.name ≠ other.name then false
  else if e.values.length ≠ other.values.length then false
  else e.values = other.values

/-- `Function.Equals`: same signature, return type and body hash. -/
def Function.equals (f other : Function) : Bool :=
  if f.signature ≠ other.signature then false
  else if f.returnType ≠ other.returnType then false
  else f.bodyHash = other.bodyHash

/-- `ChangeType` from `changeset.go` (a Go string type with 15 constants;
modelled as an enumeration carrying its string value via `toGoString`). -/
inductive ChangeType where
  | createTable | dropTable
  | addColumn | dropColumn | alterColumn
  | createIndex | dropIndex
  | addConstraint | dropConstraint
  | createEnum | dropEnum | addEnumValue
  | createFunction | dropFunction | replaceFunction
deriving DecidableEq, Repr

/-- The string constant each `ChangeType` stands for. -/
def ChangeType.toGoString : ChangeType → String
  | .createTable => "CREATE_TABLE"
  | .dropTable => "DROP_TABLE"
  | .addColumn => "ADD_COLUMN"
  | .dropColumn => "DROP_COLUMN"
  | .alterColumn => "ALTER_COLUMN"
  | .createIndex => "CREATE_INDEX"
  | .dropIndex => "DROP_INDEX"
  | .addConstraint => "ADD_CONSTRAINT"
  | .dropConstraint => "DROP_CONSTRAINT"
  | .createEnum => "CREATE_ENUM"
  | .dropEnum => "DROP_ENUM"
  | .addEnumValue => "ADD_ENUM_VALUE"
  | .createFunction => "CREATE_FUNCTION"
  | .dropFunction => "DROP_FUNCTION"
  | .replaceFunction => "REPLACE_FUNCTION"

/-- `ColumnAlteration` from `changeset.go`. -/
structure ColumnAlteration where
  typeChanged : Bool
  oldType : String
  newType : String
  nullableChanged : Bool
  oldNullable : Bool
  newNullable : Bool
  defaultChanged : Bool
  oldDefault : Option String
  newDefault : Option String
deriving DecidableEq, Repr

/-- The `Change` interface of `changeset.go`, as the closed sum of the 15
concrete change structs implemented by the package. -/
inductive Change where
  | createTable (table : Table)
  | dropTable (table : Table)
  | addColumn (tableName : String) (column : Column)
  | dropColumn (tableName : String) (column : Column)
  | alterColumn (tableName columnName : String) (oldColumn newColumn : Column)
      (alteration : ColumnAlteration)
  | createIndex (index : Index)
  | dropIndex (index : Index)
  | addConstraint (tableName : String) (constraint : Constraint)
  | dropConstraint (tableName : String) (constraint : Constraint)
  | createEnum (enum : Enum)
  | dropEnum (enum : Enum)
  | addEnumValue (enumName value after : String)
  | createFunction (function : Function)
  | dropFunction (function : Function)
  | replaceFunction (oldFunction newFunction : Function)
deriving DecidableEq, Repr

/-- The `Type()` method of each change struct. -/
def Change.type : Change → ChangeType
  | .createTable _ => .createTable
  | .dropTable _ => .dropTable
  | .addColumn _ _ => .addColumn
  | .dropColumn _ _ => .dropColumn
  | .alterColumn _ _ _ _ _ => .alterColumn
  | .createIndex _ => .createIndex
  | .dropIndex _ => .dropIndex
  | .addConstraint _ _ => .addConstraint
  | .dropConstraint _ _ => .dropConstraint
  | .createEnum _ => .createEnum
  | .dropEnum _ => .dropEnum
  | .addEnumValue _ _ _ => .addEnumValue
  | .createFunction _ => .createFunction
  | .dropFunction _ => .dropFunction
  | .replaceFunction _ _ => .replaceFunction

/-- The `IsDestructive()` method of each change struct (`changeset.go`). -/
def Change.isDestructive : Change → Bool
  | .createTable _ => false
  | .dropTable _ => true
  | .addColumn _ _ => false
  | .dropColumn _ _ => true
  | .alterColumn _ _ _ _ alt =>
      if alt.typeChanged then true
      else if alt.nullableChanged ∧ alt.newNullable = false then true
      else false
  | .createIndex _ => false
  | .dropIndex _ => false
  | .addConstraint _ _ => false
  | .dropConstraint _ con => con.type = ConstraintForeignKey
  | .createEnum _ => false
  | .dropEnum _ => true
  | .addEnumValue _ _ _ => false
  | .createFunction _ => false
  | .dropFunction _ => false
  | .replaceFunction _ _ => false

/-- The `ObjectName()` method of each change struct. -/
def Change.objectName : Change → String
  | .createTable t => t.fullName
  | .dropTable t => t.fullName
  | .addColumn tn col => tn ++ "." ++ col.name
  | .dropColumn tn col => tn ++ "." ++ col.name
  | .alterColumn tn cn _ _ _ => tn ++ "." ++ cn
  | .createIndex i => i.name
  | .dropIndex i => i.name
  | .addConstraint _ con => con.name
  | .dropConstraint _ con => con.name
  | .createEnum e => e.fullName
  | .dropEnum e => e.fullName
  | .addEnumValue en _ _ => en
  | .createFunction f => f.fullName
  | .dropFunction f => f.fullName
  | .replaceFunction _ nf => nf.fullName

/-- A single-quote character (used by `quoteLiteral` and descriptions). -/
def sq : Char := '\''

/-- A one-character string holding a single quote. -/
def sqs : String := String.mk [sq]

/-- `joinParts` from `changeset.go`: comma-space join. -/
def joinParts : List String → String
  | [] => ""
  | p :: rest => rest.foldl (fun acc x => acc ++ ", " ++ x) p

/-- The `Description()` method of each change struct. -/
def Change.description : Change → String
  | .createTable t => "Create table " ++ t.fullName
  | .dropTable t => "Drop table " ++ t.fullName
  | .addColumn tn col =>
      "Add column " ++ tn ++ "." ++ col.name ++ " (" ++ col.fullType ++ ")"
  | .dropColumn tn col => "Drop column " ++ tn ++ "." ++ col.name
  | .alterColumn tn cn _ _ alt =>
      let parts : List String :=
        (if alt.typeChanged then
          ["type " ++ alt.oldType ++ " → " ++ alt.newType] else []) ++
        (if alt.nullableChanged then
          [if alt.newNullable then "set nullable" else "set not null"] else []) ++
        (if alt.defaultChanged then
          [match alt.newDefault with
           | none => "drop default"
           | some d => "set default " ++ d] else [])
      "Alter column " ++ tn ++ "." ++ cn ++ ": " ++ joinParts parts
  | .createIndex i =>
      "Create " ++ (if i.isUnique then "unique " else "") ++ "index " ++
        i.name ++ " on " ++ i.tableName
  | .dropIndex i => "Drop index " ++ i.name
  | .addConstraint tn con =>
      "Add " ++ con.type ++ " constraint " ++ con.name ++ " on " ++ tn
  | .dropConstraint tn con =>
      "Drop " ++ con.type ++ " constraint " ++ con.name ++ " from " ++ tn
  | .createEnum e => "Create enum " ++ e.fullName
  | .dropEnum e => "Drop enum " ++ e.fullName
  | .addEnumValue en v aft =>
      if aft ≠ "" then
        "Add value " ++ sqs ++ v ++ sqs ++ " to enum " ++ en ++
          " after " ++ sqs ++ aft ++ sqs
      else
        "Add value " ++ sqs ++ v ++ sqs ++ " to enum " ++ en
  | .createFunction f => "Create function " ++ f.signature
  | .dropFunction f => "Drop function " ++ f.signature
  | .replaceFunction _ nf => "Replace function " ++ nf.signature

/-- `ChangeSet` from `changeset.go`. -/
structure ChangeSet where
  changes : List Change
deriving DecidableEq, Repr

/-- `NewChangeSet`. -/
def NewChangeSet : ChangeSet := ⟨[]⟩

/-- `ChangeSet.IsEmpty`. -/
def ChangeSet.isEmpty (cs : ChangeSet) : Bool := cs.changes.length = 0

/-- `ChangeSet.HasDestructive`. -/
def ChangeSet.hasDestructive (cs : ChangeSet) : Bool :=
  cs.changes.any Change.isDestructive

/-- `ChangeSet.DestructiveCount`. -/
def ChangeSet.destructiveCount (cs : ChangeSet) : Nat :=
  (cs.changes.filter Change.isDestructive).length

/-- `ChangeSet.ByType`: the changes of one type, in input order. -/
def ChangeSet.byType (cs : ChangeSet) (t : ChangeType) : List Change :=
  cs.changes.filter (fun c => c.type = t)

/-- `for i, v := range vs` : the elements of `vs` paired with their indices,
starting at `i0`. -/
def withIdx : Nat → List String → List (Nat × String)
  | _, [] => []
  | i, v :: vs => (i, v) :: withIdx (i + 1) vs

/-- The `fromValues` map built by `diffEnumValues` (`value -> position`).
Go map insertion overwrites on duplicate values; only `isSome` of a lookup
is ever consulted, for which first-binding-wins association lists agree. -/
def buildPos : Nat → List String → SMap Nat
  | _, [] => []
  | i, v :: vs => (v, i) :: buildPos (i + 1) vs

/-- `diffEnumValues` from `diff.go`: one `AddEnumValue` per value of `to`
absent from `from`, anchored after the preceding label of `to` (empty anchor
for the first label). -/
def diffEnumValues (f t : Enum) : List Change :=
  let fromValues := buildPos 0 f.values
  (withIdx 0 t.values).filterMap fun p =>
    if (SMap.find? fromValues p.2).isSome then none
    else
      some (.addEnumValue t.name p.2
        (if p.1 > 0 then t.values.getD (p.1 - 1) "" else ""))

/-- `diffEnums` from `diff.go`: drops, then creations and value diffs. -/
def diffEnums (f t : Schema) : List Change :=
  (f.enums.filterMap fun p =>
    if (SMap.find? t.enums p.1).isSome then none
    else some (.dropEnum p.2)) ++
  (t.enums.flatMap fun p =>
    match SMap.find? f.enums p.1 with
    | none => [.createEnum p.2]
    | some fe => diffEnumValues fe p.2)

/-- `computeColumnAlteration` from `diff.go`. -/
def computeColumnAlteration (f t : Column) : ColumnAlteration :=
  let base : ColumnAlteration :=
    ⟨false, "", "", false, false, false, false, none, none⟩
  let fromType := f.fullType
  let toType := t.fullType
  let alt :=
    if fromType ≠ toType then
      { base with typeChanged := true, oldType := fromType, newType := toType }
    else base
  let alt :=
    if f.isNullable ≠ t.isNullable then
      { alt with nullableChanged := true, oldNullable := f.isNullable,
                 newNullable := t.isNullable }
    else alt
  match f.defaultValue, t.defaultValue with
  | none, none => alt
  | some d, none =>
      { alt with defaultChanged := true, oldDefault := some d, newDefault := none }
  | none, some d =>
      { alt with defaultChanged := true, oldDefault := none, newDefault := some d }
  | some a, some b =>
      if a ≠ b then
        { alt with defaultChanged := true, oldDefault := some a, newDefault := some b }
      else alt

/-- `diffColumns` from `diff.go`. -/
def diffColumns (f t : Table) : List Change :=
  let tableName := t.fullName
  (f.columns.filterMap fun p =>
    if (SMap.find? t.columns p.1).isSome then none
    else some (.dropColumn tableName p.2)) ++
  (t.columns.flatMap fun p =>
    match SMap.find? f.columns p.1 with
    | none => [.addColumn tableName p.2]
    | some fc =>
        if fc.equals p.2 then []
        else [.alterColumn tableName p.1 fc p.2 (computeColumnAlteration fc p.2)])

/-- `diffIndexes` from `diff.go` (primary-key indexes are skipped). -/
def diffIndexes (f t : Table) : List Change :=
  (f.indexes.filterMap fun p =>
    if p.2.isPrimary then none
    else if (SMap.find? t.indexes p.1).isSome then none
    else some (.dropIndex p.2)) ++
  (t.indexes.flatMap fun p =>
    if p.2.isPrimary then []
    else
      match SMap.find? f.indexes p.1 with
      | none => [.createIndex p.2]
      | some fi =>
          if fi.equals p.2 then []
          else [.dropIndex fi, .createIndex p.2])

/-- `diffConstraints` from `diff.go`. -/
def diffConstraints (f t : Table) : List Change :=
  let tableName := t.fullName
  (f.constraints.filterMap fun p =>
    if (SMap.find? t.constraints p.1).isSome then none
    else some (.dropConstraint tableName p.2)) ++
  (t.constraints.flatMap fun p =>
    match SMap.find? f.constraints p.1 with
    | none => [.addConstraint tableName p.2]
    | some fc =>
        if fc.equals p.2 then []
        else [.dropConstraint tableName fc, .addConstraint tableName p.2])

/-- `diffTableContents` from `diff.go`. -/
def diffTableContents (f t : Table) : List Change :=
  diffColumns f t ++ diffIndexes f t ++ diffConstraints f t

/-- `diffTables` from `diff.go`. -/
def diffTables (f t : Schema) : List Change :=
  (f.tables.filterMap fun p =>
    if (SMap.find? t.tables p.1).isSome then none
    else some (.dropTable p.2)) ++
  (t.tables.flatMap fun p =>
    match SMap.find? f.tables p.1 with
    | none => [.createTable p.2]
    | some ft => diffTableContents ft p.2)

/-- `diffFunctions` from `diff.go`. -/
def diffFunctions (f t : Schema) : List Change :=
  (f.functions.filterMap fun p =>
    if (SMap.find? t.functions p.1).isSome then none
    else some (.dropFunction p.2)) ++
  (t.functions.flatMap fun p =>
    match SMap.find? f.functions p.1 with
    | none => [.createFunction p.2]
    | some ff =>
        if ff.equals p.2 then []
        else [.replaceFunction ff p.2])

/-- `Diff` from `diff.go`: enums, then tables, then functions, appended into
one `ChangeSet` in program order. -/
def Diff (f t : Schema) : ChangeSet :=
  ⟨diffEnums f t ++ diffTables f t ++ diffFunctions f t⟩

/-- Well-formedness of a table representation: each map binds a key once. -/
def Table.WF (t : Table) : Prop :=
  t.columns.NodupKeys ∧ t.indexes.NodupKeys ∧ t.constraints.NodupKeys

/-- Well-formedness of a schema representation (a legal Go schema model):
each map binds a key once, recursively. -/
def Schema.WF (s : Schema) : Prop :=
  s.tables.NodupKeys ∧ s.enums.NodupKeys ∧ s.functions.NodupKeys ∧
    ∀ p ∈ s.tables, Table.WF p.2

instance : DecidablePred Table.WF := fun t => by
  unfold Table.WF SMap.NodupKeys
  infer_instance

instance : DecidablePred Schema.WF := fun s => by
  unfold Schema.WF SMap.NodupKeys
  infer_instance

/-- `strings.ReplaceAll s (String.mk [c]) (String.mk [c, c])`: double every
occurrence of the character `c`. -/
def escDouble (c : Char) : List Char → List Char
  | [] => []
  | x :: xs => if x = c then x :: x :: escDouble c xs else x :: escDouble c xs

/-- An ASCII lowercase letter (`'a' <= c && c <= 'z'`). -/
def isLowerAZ (c : Char) : Bool := 'a' ≤ c ∧ c ≤ 'z'

/-- An ASCII digit (`'0' <= c && c <= '9'`). -/
def isDigit09 (c : Char) : Bool := '0' ≤ c ∧ c ≤ '9'

/-- The reserved-word list of `isSimpleIdent` (`generate.go`). -/
def reservedWords : List String :=
  ["select", "from", "where", "table", "index", "user", "order", "group",
   "by", "as", "on", "join"]

/-- `strings.ToLower` (only ever applied to ASCII identifiers here). -/
def toLowerStr (s : String) : String := String.mk (s.data.map Char.toLower)

/-- `isSimpleIdent` from `generate.go`: nonempty, first byte a lowercase
letter or underscore, remaining bytes lowercase letters, digits or
underscores, and not a reserved word. -/
def isSimpleIdent (name : String) : Bool :=
  match name.data with
  | [] => false
  | first :: rest =>
      if ¬(isLowerAZ first ∨ first = '_') then false
      else if ¬(rest.all fun c => isLowerAZ c ∨ isDigit09 c ∨ c = '_') then false
      else ¬(reservedWords.contains (toLowerStr name))

/-- `quoteIdent` from `generate.go`: simple identifiers pass through,
everything else is double-quoted with embedded double quotes doubled. -/
def quoteIdent (name : String) : String :=
  if isSimpleIdent name then name
  else String.mk ('"' :: escDouble '"' name.data ++ ['"'])

/-- `quoteIdents`. -/
def quoteIdents (names : List String) : List String := names.map quoteIdent

/-- `quoteLiteral` from `generate.go`: single-quoted with embedded single
quotes doubled. -/
def quoteLiteral (s : String) : String :=
  String.mk (sq :: escDouble sq s.data ++ [sq])

/-- Insertion step for `sortBy`. -/
def insertBy {α : Type} (lt : α → α → Bool) (a : α) : List α → List α
  | [] => [a]
  | b :: bs => if lt b a then b :: insertBy lt a bs else a :: b :: bs

/-- `sort.Slice` model: sorts by the given strict comparator.  (Go's
`sort.Slice` leaves the order of comparator-equal elements unspecified;
this model uses a stable insertion sort.) -/
def sortBy {α : Type} (lt : α → α → Bool) : List α → List α
  | [] => []
  | a :: as => insertBy lt a (sortBy lt as)

/-- `Table.SortedColumns`: by ascending `Position`. -/
def Table.sortedColumns (t : Table) : List Column :=
  sortBy (fun a b => a.position < b.position) (t.columns.map Prod.snd)

/-- `Table.SortedConstraints`: by ascending name. -/
def Table.sortedConstraints (t : Table) : List Constraint :=
  sortBy (fun a b => a.name < b.name) (t.constraints.map Prod.snd)

/-- `columnDefinition` from `generate.go`. -/
def columnDefinition (col : Column) : String :=
  quoteIdent col.name ++ " " ++ col.fullType ++
    (if col.isNullable then "" else " NOT NULL") ++
    (match col.defaultValue with
     | none => ""
     | some d => " DEFAULT " ++ d)

/-- The column block of `generateCreateTable`: four-space indent, a comma
after every column but the last, one column per line. -/
def createTableRows : List Column → String
  | [] => ""
  | [c] => "    " ++ columnDefinition c ++ "\n"
  | c :: rest => "    " ++ columnDefinition c ++ ",\n" ++ createTableRows rest

/-- `generateAddConstraint` from `generate.go`. -/
def generateAddConstraint (tableName : String) (con : Constraint) : String :=
  "ALTER TABLE " ++ quoteIdent tableName ++ " ADD CONSTRAINT " ++
    quoteIdent con.name ++ " " ++ con.definition ++ ";"

/-- `generateCreateTable` from `generate.go`. -/
def generateCreateTable (t : Table) : String :=
  let head := "CREATE TABLE " ++ quoteIdent t.fullName ++ " (\n" ++
    createTableRows t.sortedColumns ++ ");"
  let extra := (t.sortedConstraints.filter
      (fun con => ¬ con.type = ConstraintPrimaryKey)).map
    (fun con => generateAddConstraint t.fullName con)
  if extra.length > 0 then head ++ "\n" ++ String.intercalate "\n" extra
  else head

/-- `generateAlterColumn` from `generate.go`: up to three statements joined
by newlines; empty when the alteration records no change. -/
def generateAlterColumn (tableName columnName : String)
    (alt : ColumnAlteration) : String :=
  let tn := quoteIdent tableName
  let cn := quoteIdent columnName
  let statements : List String :=
    (if alt.typeChanged then
      ["ALTER TABLE " ++ tn ++ " ALTER COLUMN " ++ cn ++ " TYPE " ++
        alt.newType ++ ";"] else []) ++
    (if alt.nullableChanged then
      [if alt.newNullable then
        "ALTER TABLE " ++ tn ++ " ALTER COLUMN " ++ cn ++ " DROP NOT NULL;"
       else
        "ALTER TABLE " ++ tn ++ " ALTER COLUMN " ++ cn ++ " SET NOT NULL;"]
     else []) ++
    (if alt.defaultChanged then
      [match alt.newDefault with
       | none =>
          "ALTER TABLE " ++ tn ++ " ALTER COLUMN " ++ cn ++ " DROP DEFAULT;"
       | some d =>
          "ALTER TABLE " ++ tn ++ " ALTER COLUMN " ++ cn ++ " SET DEFAULT " ++
            d ++ ";"] else [])
  String.intercalate "\n" statements

/-- `GenerateChange` from `generate.go`.  The Go `default` branch (an
unknown implementation of the `Change` interface) returns `""`; within the
closed model every variant is known, but `generateAlterColumn` still
returns `""` for a no-op alteration. -/
def GenerateChange : Change → String
  | .createTable t => generateCreateTable t
  | .dropTable t => "DROP TABLE " ++ quoteIdent t.fullName ++ ";"
  | .addColumn tn col =>
      "ALTER TABLE " ++ quoteIdent tn ++ " ADD COLUMN " ++
        columnDefinition col ++ ";"
  | .dropColumn tn col =>
      "ALTER TABLE " ++ quoteIdent tn ++ " DROP COLUMN " ++
        quoteIdent col.name ++ ";"
  | .alterColumn tn cn _ _ alt => generateAlterColumn tn cn alt
  | .createIndex i =>
      if i.definition ≠ "" then i.definition ++ ";"
      else
        "CREATE " ++ (if i.isUnique then "UNIQUE " else "") ++ "INDEX " ++
          quoteIdent i.name ++ " ON " ++ quoteIdent i.tableName ++ " (" ++
          String.intercalate ", " (quoteIdents i.columns) ++ ");"
  | .dropIndex i => "DROP INDEX " ++ quoteIdent i.name ++ ";"
  | .addConstraint tn con => generateAddConstraint tn con
  | .dropConstraint tn con =>
      "ALTER TABLE " ++ quoteIdent tn ++ " DROP CONSTRAINT " ++
        quoteIdent con.name ++ ";"
  | .createEnum e =>
      "CREATE TYPE " ++ quoteIdent e.fullName ++ " AS ENUM (" ++
        String.intercalate ", " (e.values.map quoteLiteral) ++ ");"
  | .dropEnum e => "DROP TYPE " ++ quoteIdent e.fullName ++ ";"
  | .addEnumValue en v aft =>
      if aft ≠ "" then
        "ALTER TYPE " ++ quoteIdent en ++ " ADD VALUE " ++ quoteLiteral v ++
          " AFTER " ++ quoteLiteral aft ++ ";"
      else
        "ALTER TYPE " ++ quoteIdent en ++ " ADD VALUE " ++ quoteLiteral v ++ ";"
  | .createFunction f => f.definition ++ ";"
  | .dropFunction f => "DROP FUNCTION " ++ f.fullName ++ ";"
  | .replaceFunction _ nf =>
      let d := nf.definition
      (if d.startsWith "CREATE FUNCTION" then
        "CREATE OR REPLACE" ++ d.drop 6
       else d) ++ ";"

/-- The fixed global phase order of `OrderChanges` (`apply.go`). -/
def orderList : List ChangeType :=
  [.createEnum, .addEnumValue, .createTable, .addColumn, .createIndex,
   .addConstraint, .createFunction, .replaceFunction, .dropConstraint,
   .dropIndex, .alterColumn, .dropColumn, .dropTable, .dropEnum,
   .dropFunction]

/-- `OrderChanges` from `apply.go`: concatenate `ByType` buckets in the
fixed phase order. -/
def OrderChanges (cs : ChangeSet) : ChangeSet :=
  ⟨orderList.flatMap fun ct => cs.byType ct⟩

/-- `isNumericType` from `apply.go`. -/
def isNumericType (t : String) : Bool :=
  ["integer", "int", "bigint", "smallint", "decimal", "numeric", "real",
   "double"].contains t

/-- `isStringType` from `apply.go`. -/
def isStringType (t : String) : Bool :=
  t = "text" ∨ t = "varchar" ∨ t = "character varying" ∨ t = "char" ∨
    t = "character"

/-- The precision-loss warning of `ValidateChanges`. -/
def precisionWarning (objectName oldType newType : String) : String :=
  "Changing " ++ objectName ++ " from " ++ oldType ++ " to " ++ newType ++
    " may lose precision"

/-- The conversion-failure error of `ValidateChanges`. -/
def conversionError (objectName oldType newType : String) : String :=
  "Changing " ++ objectName ++ " from " ++ oldType ++ " to " ++ newType ++
    " may fail if data cannot be converted"

/-- The NOT NULL warning of `ValidateChanges`. -/
def notNullWarning (objectName : String) : String :=
  "Setting " ++ objectName ++
    " to NOT NULL may fail if column contains NULL values"

/-- The warnings one change contributes to `ValidateChanges`. -/
def validateWarnings (c : Change) : List String :=
  match c with
  | .alterColumn _ _ _ _ alt =>
      (if alt.typeChanged then
        (if isNumericType alt.oldType ∧ isStringType alt.newType then
          [precisionWarning c.objectName alt.oldType alt.newType] else [])
       else []) ++
      (if alt.nullableChanged ∧ alt.newNullable = false then
        [notNullWarning c.objectName] else [])
  | .dropColumn _ _ =>
      ["Dropping column " ++ c.objectName ++
        " will permanently delete all data in that column"]
  | .dropTable _ =>
      ["Dropping table " ++ c.objectName ++
        " will permanently delete all data in that table"]
  | _ => []

/-- The errors one change contributes to `ValidateChanges`. -/
def validateErrors (c : Change) : List String :=
  match c with
  | .alterColumn _ _ _ _ alt =>
      if alt.typeChanged then
        (if isStringType alt.oldType ∧ isNumericType alt.newType then
          [conversionError c.objectName alt.oldType alt.newType] else [])
      else []
  | _ => []

/-- `ValidateChanges` from `apply.go`: advisory warning and error strings,
accumulated over the changes in input order. -/
def ValidateChanges (cs : ChangeSet) : List String × List String :=
  (cs.changes.flatMap validateWarnings, cs.changes.flatMap validateErrors)

/-- A database/transaction oracle for the applier: whether `Begin` fails,
and whether each executed statement or the final `Commit` fails, as a
function of the statements already executed in the transaction. -/
structure DB where
  beginErr : Option String
  execErr : List String → String → Option String
  commitErr : List String → Option String

/-- `ChangeError` from `apply.go`. -/
structure ChangeError where
  change : Change
  sql : String
  error : String
deriving DecidableEq, Repr

/-- `ApplyResult` from `apply.go`. -/
structure ApplyResult where
  applied : List Change
  failed : List ChangeError
deriving DecidableEq, Repr

/-- Outcome of the statement loop inside `Applier.Apply`. -/
structure LoopOut where
  applied : List Change
  failed : List ChangeError
  err : Option String
  executed : List String
deriving DecidableEq, Repr

/-- The `for _, change := range cs.Changes` loop of `Applier.Apply`:
skip empty SQL, execute, stop at the first statement error. -/
def applyLoop (gen : Change → String) (db : DB) :
    List Change → List String → List Change → LoopOut
  | [], hist, applied => ⟨applied, [], none, hist⟩
  | c :: rest, hist, applied =>
      let sql := gen c
      if sql = "" then applyLoop gen db rest hist applied
      else
        match db.execErr hist sql with
        | some e =>
            ⟨applied, [⟨c, sql, e⟩], some ("failed to apply change: " ++ e),
              hist ++ [sql]⟩
        | none => applyLoop gen db rest (hist ++ [sql]) (applied ++ [c])

/-- Observable outcome of one `Applier.Apply` call: the returned pair plus
a trace of the transaction (`result = none` models a `nil` result). -/
structure ApplyOut where
  result : Option ApplyResult
  error : Option String
  beginCalls : Nat
  executed : List String
  committed : Bool
  rolledBack : Bool
deriving DecidableEq, Repr

/-- `Applier.Apply` from `apply.go`: empty input short-circuits before
`Begin`; otherwise one transaction is opened, statements run in order until
the first failure, and the deferred `Rollback` takes effect on every exit
path except after a successful `Commit`. -/
def Apply (gen : Change → String) (db : DB) (cs : ChangeSet) : ApplyOut :=
  if cs.isEmpty then ⟨some ⟨[], []⟩, none, 0, [], false, false⟩
  else
    match db.beginErr with
    | some e =>
        ⟨none, some ("failed to begin transaction: " ++ e), 1, [], false, false⟩
    | none =>
        let lo := applyLoop gen db cs.changes [] []
        match lo.err with
        | some er => ⟨some ⟨lo.applied, lo.failed⟩, some er, 1, lo.executed,
            false, true⟩
        | none =>
            match db.commitErr lo.executed with
            | some ce =>
                ⟨some ⟨lo.applied, lo.failed⟩,
                  some ("failed to commit transaction: " ++ ce), 1,
                  lo.executed, false, true⟩
            | none =>
                ⟨some ⟨lo.applied, lo.failed⟩, none, 1, lo.executed, true,
                  false⟩

/-- The statement loop of `Applier.DryRun`. -/
def dryRunGo : List Change → Except String (List String)
  | [] => .ok []
  | c :: rest =>
      let sql := GenerateChange c
      if sql = "" then
        .error ("cannot generate SQL for change: " ++ c.description)
      else
        match dryRunGo rest with
        | .error e => .error e
        | .ok stmts => .ok (sql :: stmts)

/-- `Applier.DryRun` from `apply.go`: renders every change, failing at the
first change whose SQL is empty. -/
def DryRun (cs : ChangeSet) : Except String (List String) :=
  dryRunGo cs.changes

/-- The changes of a list that render to nonempty SQL, with their SQL. -/
def rendered (gen : Change → String) (l : List Change) :
    List (Change × String) :=
  l.filterMap fun c => if gen c = "" then none else some (c, gen c)

/-! Specification-side definitions, written from the spec's words, to be
compared with the definitions translated from the source. -/

/-- The phase number of each change type in the spec's fixed global phase
order (1. CreateEnum … 15. DropFunction), zero-based. -/
def phaseIndex : ChangeType → Nat
  | .createEnum => 0
  | .addEnumValue => 1
  | .createTable => 2
  | .addColumn => 3
  | .createIndex => 4
  | .addConstraint => 5
  | .createFunction => 6
  | .replaceFunction => 7
  | .dropConstraint => 8
  | .dropIndex => 9
  | .alterColumn => 10
  | .dropColumn => 11
  | .dropTable => 12
  | .dropEnum => 13
  | .dropFunction => 14

/-- Destructive classification from the spec: table/column/enum drops always,
constraint drops only for foreign keys, column alterations when the type
changes or nullability tightens (nullable to not-null), nothing else. -/
def destructiveSpec : Change → Bool
  | .dropTable _ => true
  | .dropColumn _ _ => true
  | .dropEnum _ => true
  | .dropConstraint _ con => con.type = ConstraintForeignKey
  | .alterColumn _ _ _ _ alt =>
      alt.typeChanged ∨
        (alt.nullableChanged ∧ alt.oldNullable ∧ alt.newNullable = false)
  | _ => false

/-- A `ColumnAlteration` is coherent when its `NullableChanged` flag really
records a change of nullability.  Every alteration the differ produces
(`computeColumnAlteration`) is coherent. -/
def AltCoherent : Change → Prop
  | .alterColumn _ _ _ _ alt =>
      alt.nullableChanged = true → alt.oldNullable ≠ alt.newNullable
  | _ => True

instance : DecidablePred AltCoherent := fun c => by
  cases c <;> simp only [AltCoherent] <;> infer_instance

/-- Enum value diffing as the spec words it: walking `to`'s value list with
the immediately preceding label at hand (empty for the first label), emit
one `AddEnumValue` for each label absent from `from`'s value list. -/
def specEnumAdds (name : String) (fvals : List String) :
    List String → String → List Change
  | [], _ => []
  | v :: rest, prev =>
      (if v ∈ fvals then [] else [.addEnumValue name v prev]) ++
        specEnumAdds name fvals rest v

/-- The claim's identifier class, read literally: a bare lowercase-start,
lowercase/digit/underscore identifier not in the reserved-word list. -/
def isSimpleIdentClaim (s : String) : Bool :=
  match s.data with
  | [] => false
  | first :: rest =>
      isLowerAZ first ∧
        (rest.all fun c => isLowerAZ c ∨ isDigit09 c ∨ c = '_') ∧
        ¬ reservedWords.contains s

/-- The amended identifier class: first character a lowercase letter **or
underscore**, remaining characters lowercase letters, digits or
underscores, and not a reserved word. -/
def isSimpleIdentAmended (s : String) : Bool :=
  match s.data with
  | [] => false
  | first :: rest =>
      (isLowerAZ first ∨ first = '_') ∧
        (rest.all fun c => isLowerAZ c ∨ isDigit09 c ∨ c = '_') ∧
        ¬ reservedWords.contains s

/-- "with each embedded `c` character doubled", as a flatMap. -/
def dub (c x : Char) : List Char := if x = c then [x, x] else [x]

/-- Strict lexicographic order on character lists (by code point), used to
canonically order map keys.  (The standard `String` order is defined via
iterators and does not evaluate by kernel reduction; this one does.) -/
def charListLt : List Char → List Char → Bool
  | [], [] => false
  | [], _ :: _ => true
  | _ :: _, [] => false
  | a :: as, b :: bs =>
      if a < b then true else if b < a then false else charListLt as bs

/-- Strict lexicographic order on strings. -/
def keyLt (a b : String) : Bool := charListLt a.data b.data

/-- Its reflexive closure. -/
def keyLe (a b : String) : Prop := a = b ∨ keyLt a b = true

instance : ∀ a b, Decidable (keyLe a b) := fun a b => by
  unfold keyLe
  infer_instance

/-- Canonical representation of a Go map: the bindings sorted by key.  Two
association lists with no duplicate keys denote the same Go map exactly
when their key-sorted forms are equal. -/
def sortByKey {α : Type} (m : SMap α) : SMap α :=
  List.insertionSort (fun p q => keyLe p.1 q.1) m

/-- Canonical representation of a Go `Table` value: its three nested maps
in key-sorted order. -/
def normTable (t : Table) : Table :=
  ⟨t.name, t.schema, sortByKey t.columns, sortByKey t.indexes,
    sortByKey t.constraints⟩

/-- Canonicalize a table binding. -/
def normPair (p : String × Table) : String × Table := (p.1, normTable p.2)

/-- Canonical representation of a `Change` as a Go value: only
`CreateTable` and `DropTable` carry a `Table` (a value with maps inside);
their payloads are canonicalized, everything else is untouched. -/
def normChange (c : Change) : Change :=
  match c with
  | .createTable t => .createTable (normTable t)
  | .dropTable t => .dropTable (normTable t)
  | c => c

/-- Two table representations denote the same Go `Table` value: equal
scalar fields, and each nested map equal as a map (its association list a
permutation binding for binding — Go randomizes every map's iteration
order). -/
def Table.MapEq (t₁ t₂ : Table) : Prop :=
  t₁.name = t₂.name ∧ t₁.schema = t₂.schema ∧
    t₁.columns.Perm t₂.columns ∧ t₁.indexes.Perm t₂.indexes ∧
    t₁.constraints.Perm t₂.constraints

instance : ∀ t₁ t₂, Decidable (Table.MapEq t₁ t₂) := fun t₁ t₂ => by
  unfold Table.MapEq
  infer_instance

/-- Two schema representations denote the same Go schema value: equal
names, and each map equal as a map — its association list a permutation
binding for binding, where table values are themselves compared as Go
values (nested maps order-insensitively, via their canonical forms).
`normTable_eq_iff_mapEq` shows the table bindings are identified exactly up
to `Table.MapEq`. -/
def Schema.MapEq (s₁ s₂ : Schema) : Prop :=
  s₁.name = s₂.name ∧ (s₁.tables.map normPair).Perm (s₂.tables.map normPair) ∧
    s₁.enums.Perm s₂.enums ∧ s₁.functions.Perm s₂.functions

instance : ∀ s₁ s₂, Decidable (Schema.MapEq s₁ s₂) := fun s₁ s₂ => by
  unfold Schema.MapEq
  infer_instance

/-! Concrete instances used to exercise the theorems. -/

/-- A concrete column. -/
def colId : Column :=
  ⟨"id", "integer", false, none, 1, none, none, none, false, ""⟩

/-- A second concrete column. -/
def colEmail : Column :=
  ⟨"email", "text", true, some "''::text", 2, none, none, none, false, ""⟩

/-- A concrete index. -/
def idxEmail : Index :=
  ⟨"users_email_idx", "users", ["email"], true, false, "btree", ""⟩

/-- A concrete constraint. -/
def conPk : Constraint :=
  ⟨"users_pkey", ConstraintPrimaryKey, "users", ["id"], "PRIMARY KEY (id)",
    "", [], "", ""⟩

/-- A concrete table with columns, an index and a constraint. -/
def tblUsers : Table :=
  ⟨"users", "public", [("id", colId), ("email", colEmail)],
    [("users_email_idx", idxEmail)], [("users_pkey", conPk)]⟩

/-- A second concrete table. -/
def tblLogs : Table := ⟨"logs", "public", [("id", colId)], [], []⟩

/-- A concrete enum. -/
def enumStatus : Enum := ⟨"status", "public", ["pending", "active"]⟩

/-- The same enum with one more value, as in the spec's anchor example. -/
def enumStatus3 : Enum :=
  ⟨"status", "public", ["pending", "active", "deleted"]⟩

/-- A concrete function. -/
def fnGreet : Function :=
  ⟨"greet", "public", "text", "text", "sql",
    "CREATE FUNCTION greet(name text) RETURNS text AS $$ SELECT name $$ LANGUAGE sql",
    "abc123"⟩

/-- A concrete well-formed schema exercising every entity kind. -/
def schemaW : Schema :=
  ⟨"test", [("users", tblUsers), ("logs", tblLogs)],
    [("status", enumStatus)], [("greet(text)", fnGreet)]⟩

/-- An empty schema. -/
def schemaEmpty : Schema := ⟨"test", [], [], []⟩

/-- A schema holding only the two tables, in one iteration order. -/
def schemaAB : Schema :=
  ⟨"test", [("users", tblUsers), ("logs", tblLogs)], [], []⟩

/-- The same Go schema as `schemaAB`, in the other iteration order. -/
def schemaBA : Schema :=
  ⟨"test", [("logs", tblLogs), ("users", tblUsers)], [], []⟩

/-- The same Go table value as `tblUsers`, with its column map presented in
the other iteration order. -/
def tblUsersR : Table :=
  ⟨"users", "public", [("email", colEmail), ("id", colId)],
    [("users_email_idx", idxEmail)], [("users_pkey", conPk)]⟩

/-- The same Go schema as `schemaAB`, reordering both the table map and the
nested column map of `users`. -/
def schemaBAr : Schema :=
  ⟨"test", [("logs", tblLogs), ("users", tblUsersR)], [], []⟩

/-- The same Go schema as `schemaW`, reordering the table map and the
nested column map of `users`. -/
def schemaWr : Schema :=
  ⟨"test", [("logs", tblLogs), ("users", tblUsersR)],
    [("status", enumStatus)], [("greet(text)", fnGreet)]⟩

/-- A concrete foreign-key constraint. -/
def conFk : Constraint :=
  ⟨"logs_user_fkey", ConstraintForeignKey, "logs", ["user_id"],
    "FOREIGN KEY (user_id) REFERENCES users(id)", "users", ["id"], "", ""⟩

/-- An alteration that only tightens nullability (nullable to not-null). -/
def tightenAlt : ColumnAlteration :=
  ⟨false, "", "", true, true, false, false, none, none⟩

/-- An `AlterColumn` change that tightens nullability. -/
def tightenChange : Change :=
  .alterColumn "users" "email" colEmail colEmail tightenAlt

/-- An alteration that only changes the type, from `integer` to `text`. -/
def typeAlt : ColumnAlteration :=
  ⟨true, "integer", "text", false, false, false, false, none, none⟩

/-- A no-op column alteration: renders to empty SQL. -/
def noopAlt : ColumnAlteration :=
  ⟨false, "", "", false, false, false, false, none, none⟩

/-- An `AlterColumn` change whose alteration records no change; its SQL is
the empty string. -/
def noopAlter : Change := .alterColumn "users" "id" colId colId noopAlt

/-- A database oracle on which every operation succeeds. -/
def dbAllOk : DB := ⟨none, fun _ _ => none, fun _ => none⟩

/-- A database oracle that rejects exactly the statement
`DROP TABLE logs;`. -/
def dbFailDropLogs : DB :=
  ⟨none,
   fun _ s => if s = "DROP TABLE logs;" then some "permission denied" else none,
   fun _ => none⟩

/-- A three-change changeset whose second statement fails on
`dbFailDropLogs`. -/
def csThree : ChangeSet :=
  ⟨[.addColumn "users" colEmail, .dropTable tblLogs, .createEnum enumStatus]⟩

/-- Whether a change is an `AddEnumValue` for the given label. -/
def isAddValueOf (c : Change) (v : String) : Bool :=
  match c with
  | .addEnumValue _ v' _ => v' = v
  | _ => false

/-! Helper lemmas about the association-list map model. -/

theorem find?_isSome_of_mem {α : Type} {m : SMap α} {n : String} {a : α}
    (h : (n, a) ∈ m) : (SMap.find? m n).isSome = true := by
  induction m with
  | nil => cases h
  | cons p rest ih =>
      cases h with
      | head => simp [SMap.find?]
      | tail _ hm =>
          by_cases hk : p.1 = n
          · simp [SMap.find?, hk]
          · simpa [SMap.find?, hk] using ih hm

theorem mem_keys_of_mem {α : Type} {m : SMap α} {n : String} {a : α}
    (h : (n, a) ∈ m) : n ∈ m.keys := by
  induction m with
  | nil => cases h
  | cons p rest ih =>
      cases h with
      | head => simp [SMap.keys]
      | tail _ hm => simpa [SMap.keys] using Or.inr (by
          simpa [SMap.keys] using ih hm)

theorem mem_of_find?_eq_some {α : Type} {m : SMap α} {n : String} {a : α}
    (h : SMap.find? m n = some a) : (n, a) ∈ m := by
  induction m with
  | nil => simp [SMap.find?] at h
  | cons p rest ih =>
      obtain ⟨k, b⟩ := p
      by_cases hk : k = n
      · simp only [SMap.find?, hk, if_pos] at h
        injection h with hba
        subst hk
        subst hba
        exact List.mem_cons_self _ _
      · simp only [SMap.find?, hk, if_neg, not_false_iff] at h
        exact List.mem_cons_of_mem _ (ih h)

theorem find?_eq_none_of_not_mem_keys {α : Type} {m : SMap α} {n : String}
    (h : n ∉ m.keys) : SMap.find? m n = none := by
  induction m with
  | nil => rfl
  | cons p rest ih =>
      obtain ⟨k, b⟩ := p
      simp only [SMap.keys, List.map_cons, List.mem_cons] at h
      push_neg at h
      simp only [SMap.find?]
      rw [if_neg (Ne.symm h.1)]
      exact ih (by simpa [SMap.keys] using h.2)

theorem find?_eq_of_mem_nodup {α : Type} {m : SMap α} {n : String} {a : α}
    (hnd : m.NodupKeys) (h : (n, a) ∈ m) : SMap.find? m n = some a := by
  induction m with
  | nil => cases h
  | cons p rest ih =>
      simp only [SMap.NodupKeys, SMap.keys, List.map_cons,
        List.nodup_cons] at hnd
      cases h with
      | head => simp [SMap.find?]
      | tail _ hm =>
          have hk : p.1 ≠ n := by
            intro he
            exact hnd.1 (he ▸ mem_keys_of_mem hm)
          simp only [SMap.find?, hk, if_neg, not_false_iff]
          exact ih hnd.2 hm

theorem keys_perm_of_perm {α : Type} {m₁ m₂ : SMap α} (h : m₁.Perm m₂) :
    m₁.keys.Perm m₂.keys := h.map Prod.fst

theorem nodupKeys_of_perm {α : Type} {m₁ m₂ : SMap α} (h : m₁.Perm m₂)
    (hnd : m₁.NodupKeys) : m₂.NodupKeys :=
  ((keys_perm_of_perm h).nodup_iff).mp hnd

theorem find?_congr_perm {α : Type} {m₁ m₂ : SMap α} (h : m₁.Perm m₂)
    (hnd : m₁.NodupKeys) (n : String) :
    SMap.find? m₁ n = SMap.find? m₂ n := by
  cases he₁ : SMap.find? m₁ n with
  | some a =>
      exact (find?_eq_of_mem_nodup (nodupKeys_of_perm h hnd)
        (h.subset (mem_of_find?_eq_some he₁))).symm
  | none =>
      cases he₂ : SMap.find? m₂ n with
      | none => rfl
      | some a =>
          have hs := find?_isSome_of_mem
            (h.symm.subset (mem_of_find?_eq_some he₂))
          rw [he₁] at hs
          simp at hs

/-! Reflexivity of the structural equality methods. -/

theorem column_equals_self (c : Column) : c.equals c = true := by
  simp only [Column.equals, ne_eq, not_true_eq_false, if_false]
  cases c.defaultValue <;> simp

theorem index_equals_self (i : Index) : i.equals i = true := by
  simp [Index.equals]

theorem constraint_equals_self (c : Constraint) : c.equals c = true := by
  simp [Constraint.equals]

theorem enum_equals_self (e : Enum) : e.equals e = true := by
  simp [Enum.equals]

theorem function_equals_self (f : Function) : f.equals f = true := by
  simp [Function.equals]

/-! C1: `Diff(S, S)` is empty. -/

theorem mem_of_mem_withIdx {vs : List String} :
    ∀ {i : Nat} {p : Nat × String}, p ∈ withIdx i vs → p.2 ∈ vs := by
  induction vs with
  | nil => intro i p h; cases h
  | cons v rest ih =>
      intro i p h
      cases h with
      | head => exact List.mem_cons_self _ _
      | tail _ hm => exact List.mem_cons_of_mem _ (ih hm)

theorem buildPos_find_isSome {vs : List String} {v : String} :
    ∀ {i : Nat}, v ∈ vs → (SMap.find? (buildPos i vs) v).isSome = true := by
  induction vs with
  | nil => intro i h; cases h
  | cons w rest ih =>
      intro i h
      by_cases hw : w = v
      · simp [buildPos, SMap.find?, hw]
      · cases h with
        | head => exact absurd rfl hw
        | tail _ hm =>
            simpa [buildPos, SMap.find?, hw] using ih hm

theorem diffEnumValues_self (e : Enum) : diffEnumValues e e = [] := by
  unfold diffEnumValues
  rw [List.filterMap_eq_nil_iff]
  intro p hp
  rw [if_pos (buildPos_find_isSome (mem_of_mem_withIdx hp))]

theorem diffColumns_self (t : Table) (h : t.columns.NodupKeys) :
    diffColumns t t = [] := by
  unfold diffColumns
  rw [List.append_eq_nil]
  constructor
  · rw [List.filterMap_eq_nil_iff]
    intro p hp
    rw [if_pos (find?_isSome_of_mem (by simpa using hp))]
  · rw [List.flatMap_eq_nil_iff]
    intro p hp
    rw [find?_eq_of_mem_nodup h (by simpa using hp)]
    simp [column_equals_self]

theorem diffIndexes_self (t : Table) (h : t.indexes.NodupKeys) :
    diffIndexes t t = [] := by
  unfold diffIndexes
  rw [List.append_eq_nil]
  constructor
  · rw [List.filterMap_eq_nil_iff]
    intro p hp
    by_cases hpr : p.2.isPrimary
    · rw [if_pos hpr]
    · rw [if_neg hpr, if_pos (find?_isSome_of_mem (by simpa using hp))]
  · rw [List.flatMap_eq_nil_iff]
    intro p hp
    by_cases hpr : p.2.isPrimary
    · rw [if_pos hpr]
    · rw [if_neg hpr, find?_eq_of_mem_nodup h (by simpa using hp)]
      simp [index_equals_self]

theorem diffConstraints_self (t : Table) (h : t.constraints.NodupKeys) :
    diffConstraints t t = [] := by
  unfold diffConstraints
  rw [List.append_eq_nil]
  constructor
  · rw [List.filterMap_eq_nil_iff]
    intro p hp
    rw [if_pos (find?_isSome_of_mem (by simpa using hp))]
  · rw [List.flatMap_eq_nil_iff]
    intro p hp
    rw [find?_eq_of_mem_nodup h (by simpa using hp)]
    simp [constraint_equals_self]

theorem diffTableContents_self (t : Table) (h : t.WF) :
    diffTableContents t t = [] := by
  unfold diffTableContents
  rw [diffColumns_self t h.1, diffIndexes_self t h.2.1,
    diffConstraints_self t h.2.2]
  rfl

/-- C1: for every legal schema model `S` (each of its maps, and each map of
each of its tables, binds a key at most once), `Diff(S, S)` is the empty
`ChangeSet`: the diff of a schema against itself proposes no change. -/
theorem diff_self_empty (s : Schema) (h : s.WF) : Diff s s = ⟨[]⟩ := by
  obtain ⟨hts, hes, hfs, htw⟩ := h
  unfold Diff
  have henums : diffEnums s s = [] := by
    unfold diffEnums
    rw [List.append_eq_nil]
    constructor
    · rw [List.filterMap_eq_nil_iff]
      intro p hp
      rw [if_pos (find?_isSome_of_mem (by simpa using hp))]
    · rw [List.flatMap_eq_nil_iff]
      intro p hp
      rw [find?_eq_of_mem_nodup hes (by simpa using hp)]
      exact diffEnumValues_self p.2
  have htables : diffTables s s = [] := by
    unfold diffTables
    rw [List.append_eq_nil]
    constructor
    · rw [List.filterMap_eq_nil_iff]
      intro p hp
      rw [if_pos (find?_isSome_of_mem (by simpa using hp))]
    · rw [List.flatMap_eq_nil_iff]
      intro p hp
      rw [find?_eq_of_mem_nodup hts (by simpa using hp)]
      exact diffTableContents_self p.2 (htw p hp)
  have hfuncs : diffFunctions s s = [] := by
    unfold diffFunctions
    rw [List.append_eq_nil]
    constructor
    · rw [List.filterMap_eq_nil_iff]
      intro p hp
      rw [if_pos (find?_isSome_of_mem (by simpa using hp))]
    · rw [List.flatMap_eq_nil_iff]
      intro p hp
      rw [find?_eq_of_mem_nodup hfs (by simpa using hp)]
      simp [function_equals_self]
  rw [henums, htables, hfuncs]
  rfl

/-- C1 witness: a concrete well-formed schema with tables (columns, an
index, a constraint), an enum and a function diffs to nothing against
itself. -/
theorem diff_self_empty_witness :
    Schema.WF schemaW ∧ Diff schemaW schemaW = ⟨[]⟩ :=
  ⟨by decide, diff_self_empty schemaW (by decide)⟩

/-! C10: `FullName` schema qualification. -/

/-- C10: for tables, enums and functions, `FullName()` leaves the object
name (for functions, its signature `name(args)`) unqualified exactly when
the `Schema` field is empty or `public`, and otherwise joins schema and
name with a single dot. -/
theorem fullName_public_unqualified (t : Table) (e : Enum) (f : Function) :
    ((t.schema = "" ∨ t.schema = "public") → t.fullName = t.name) ∧
    (t.schema ≠ "" → t.schema ≠ "public" →
      t.fullName = t.schema ++ "." ++ t.name) ∧
    ((e.schema = "" ∨ e.schema = "public") → e.fullName = e.name) ∧
    (e.schema ≠ "" → e.schema ≠ "public" →
      e.fullName = e.schema ++ "." ++ e.name) ∧
    ((f.schema = "" ∨ f.schema = "public") → f.fullName = f.signature) ∧
    (f.schema ≠ "" → f.schema ≠ "public" →
      f.fullName = f.schema ++ "." ++ f.signature) := by
  refine ⟨fun h => ?_, fun h₁ h₂ => ?_, fun h => ?_, fun h₁ h₂ => ?_,
    fun h => ?_, fun h₁ h₂ => ?_⟩ <;>
    simp [Table.fullName, Enum.fullName, Function.fullName, *]

/-! C4: the destructive classification of `IsDestructive()`. -/

/-- C4: `IsDestructive()` agrees with the spec's classification table:
drops of tables, columns and enums are always destructive, drops of indexes
and functions and all create/add/replace changes never are, a constraint
drop is destructive exactly for foreign keys, and a column alteration is
destructive exactly when it changes the type or tightens nullability
(nullable to not-null).  The coherence hypothesis — `NullableChanged`
records a real change of nullability — holds for every alteration the
differ produces (`computeColumnAlteration_coherent`). -/
theorem isDestructive_classification (c : Change) (h : AltCoherent c) :
    c.isDestructive = destructiveSpec c := by
  cases c with
  | alterColumn tn cn oldc newc alt =>
      simp only [AltCoherent] at h
      obtain ⟨tc, ot, nt, nch, onl, nnl, dch, od, nd⟩ := alt
      simp only at h
      cases tc <;> cases nch <;> cases onl <;> cases nnl <;>
        simp_all [Change.isDestructive, destructiveSpec]
  | _ => rfl

/-- Every alteration produced by the differ is coherent. -/
theorem computeColumnAlteration_coherent (f t : Column) :
    (computeColumnAlteration f t).nullableChanged = true →
      (computeColumnAlteration f t).oldNullable ≠
        (computeColumnAlteration f t).newNullable := by
  unfold computeColumnAlteration
  by_cases ht : f.fullType ≠ t.fullType <;>
    by_cases hn : f.isNullable ≠ t.isNullable <;>
      cases hf : f.defaultValue <;> cases hd : t.defaultValue <;>
        simp_all <;> split <;> simp_all

/-- C4 witness: the classification at a nullability-tightening column
alteration. -/
theorem isDestructive_classification_witness :
    AltCoherent tightenChange ∧
      tightenChange.isDestructive = destructiveSpec tightenChange :=
  ⟨by decide, isDestructive_classification tightenChange (by decide)⟩

/-! C3: `OrderChanges` is a stable phase-ordered permutation. -/

theorem type_mem_orderList (c : Change) : c.type ∈ orderList := by
  cases c <;> simp [Change.type, orderList]

theorem flatMap_filter_cons (ts : List ChangeType) (c : Change)
    (l : List Change) (hc : c.type ∈ ts) (hnd : ts.Nodup) :
    (ts.flatMap fun t => (c :: l).filter fun x => x.type = t).Perm
      (c :: ts.flatMap fun t => l.filter fun x => x.type = t) := by
  induction ts with
  | nil => cases hc
  | cons t rest ih =>
      rw [List.nodup_cons] at hnd
      by_cases h : c.type = t
      · have hrest : (rest.flatMap fun t => (c :: l).filter fun x => x.type = t)
            = rest.flatMap fun t => l.filter fun x => x.type = t := by
          apply List.flatMap_congr
          intro t' ht'
          have : ¬ c.type = t' := fun he => hnd.1 (by rw [← h, he]; exact ht')
          simp [List.filter_cons, this]
        rw [List.flatMap_cons, List.flatMap_cons, List.filter_cons,
          if_pos (by simpa using h), hrest]
        simp
      · have hhead : ((c :: l).filter fun x => x.type = t)
            = l.filter fun x => x.type = t := by
          simp [List.filter_cons, h]
        have hc' : c.type ∈ rest := by
          cases hc with
          | head => exact absurd rfl h
          | tail _ hm => exact hm
        rw [List.flatMap_cons, List.flatMap_cons, hhead]
        exact ((ih hc' hnd.2).append_left _).trans List.perm_middle

theorem orderList_nodup : orderList.Nodup := by decide

theorem flatMap_filter_perm (l : List Change) :
    (orderList.flatMap fun t => l.filter fun x => x.type = t).Perm l := by
  induction l with
  | nil => simp
  | cons c rest ih =>
      exact (flatMap_filter_cons orderList c rest (type_mem_orderList c)
        orderList_nodup).trans (ih.cons c)

theorem filter_flatMap_filter (ts : List ChangeType) (l : List Change)
    (t₀ : ChangeType) (hc : t₀ ∈ ts) (hnd : ts.Nodup) :
    ((ts.flatMap fun t => l.filter fun x => x.type = t).filter
        fun x => x.type = t₀) = l.filter fun x => x.type = t₀ := by
  induction ts with
  | nil => cases hc
  | cons t rest ih =>
      rw [List.nodup_cons] at hnd
      rw [List.flatMap_cons, List.filter_append]
      by_cases h : t = t₀
      · subst h
        have h₁ : ((l.filter fun x => x.type = t).filter
            fun x => x.type = t) = l.filter fun x => x.type = t := by
          apply List.filter_eq_self.mpr
          intro a ha
          exact (List.mem_filter.mp ha).2
        have h₂ : ((rest.flatMap fun t' => l.filter fun x => x.type = t').filter
            fun x => x.type = t) = [] := by
          apply List.filter_eq_nil_iff.mpr
          intro a ha
          obtain ⟨t', ht', ha'⟩ := List.mem_flatMap.mp ha
          have : a.type = t' := by simpa using (List.mem_filter.mp ha').2
          simp only [decide_eq_true_eq, this]
          exact fun he => hnd.1 (he ▸ ht')
        rw [h₁, h₂, List.append_nil]
      · have hc' : t₀ ∈ rest := by
          cases hc with
          | head => exact absurd rfl h
          | tail _ hm => exact hm
        have h₁ : ((l.filter fun x => x.type = t).filter
            fun x => x.type = t₀) = [] := by
          apply List.filter_eq_nil_iff.mpr
          intro a ha
          have : a.type = t := by simpa using (List.mem_filter.mp ha).2
          simp only [decide_eq_true_eq, this]
          exact h
        rw [h₁, List.nil_append]
        exact ih hc' hnd.2

theorem pairwise_flatMap_filter (ts : List ChangeType) (l : List Change)
    (hp : ts.Pairwise fun a b => phaseIndex a < phaseIndex b) :
    (ts.flatMap fun t => l.filter fun x => x.type = t).Pairwise
      fun a b => phaseIndex a.type ≤ phaseIndex b.type := by
  induction ts with
  | nil => simp
  | cons t rest ih =>
      rw [List.pairwise_cons] at hp
      rw [List.flatMap_cons, List.pairwise_append]
      refine ⟨?_, ih hp.2, ?_⟩
      · apply List.pairwise_of_forall_mem_list
        intro a ha b hb
        have ha' : a.type = t := by simpa using (List.mem_filter.mp ha).2
        have hb' : b.type = t := by simpa using (List.mem_filter.mp hb).2
        rw [ha', hb']
      · intro a ha b hb
        have ha' : a.type = t := by simpa using (List.mem_filter.mp ha).2
        obtain ⟨t', ht', hb'⟩ := List.mem_flatMap.mp hb
        have hb'' : b.type = t' := by simpa using (List.mem_filter.mp hb').2
        rw [ha', hb'']
        exact Nat.le_of_lt (hp.1 t' ht')

theorem orderList_phase_sorted :
    orderList.Pairwise fun a b => phaseIndex a < phaseIndex b := by decide

/-- C3: `OrderChanges` permutes its input without adding, removing or
altering a change; its output is grouped by the fixed phase order
(`phaseIndex` is monotone along the output), and within each phase the
relative input order is preserved (filtering the output by any one change
type yields exactly the input's changes of that type, in input order). -/
theorem orderChanges_spec (cs : ChangeSet) :
    (OrderChanges cs).changes.Perm cs.changes ∧
    (OrderChanges cs).changes.Pairwise
      (fun a b => phaseIndex a.type ≤ phaseIndex b.type) ∧
    ∀ t : ChangeType,
      (OrderChanges cs).changes.filter (fun c => c.type = t) =
        cs.changes.filter fun c => c.type = t := by
  refine ⟨flatMap_filter_perm cs.changes,
    pairwise_flatMap_filter orderList cs.changes orderList_phase_sorted,
    fun t => ?_⟩
  exact filter_flatMap_filter orderList cs.changes t (by cases t <;> decide)
    orderList_nodup

/-! C7: quoting rules. -/

theorem escDouble_eq_flatMap (c : Char) (l : List Char) :
    escDouble c l = l.flatMap (dub c) := by
  induction l with
  | nil => rfl
  | cons x xs ih =>
      by_cases h : x = c <;> simp [escDouble, dub, h, ih]

theorem length_le_escDouble (c : Char) (l : List Char) :
    l.length ≤ (escDouble c l).length := by
  induction l with
  | nil => exact Nat.le_refl 0
  | cons x xs ih =>
      by_cases h : x = c <;> simp [escDouble, h] <;> omega

theorem toLower_ident_self (c : Char)
    (h : ('a' ≤ c ∧ c ≤ 'z') ∨ ('0' ≤ c ∧ c ≤ '9') ∨ c = '_') :
    c.toLower = c := by
  unfold Char.toLower
  rw [if_neg]
  rcases h with ⟨h₁, h₂⟩ | ⟨h₁, h₂⟩ | h
  · simp only [Char.le_def, UInt32.le_def, BitVec.le_def] at h₁ h₂
    intro hc
    obtain ⟨ha, hb⟩ := hc
    simp only [Char.toNat, UInt32.toNat] at ha hb
    revert h₁ h₂ ha hb
    show 97 ≤ c.val.toBitVec.toNat → c.val.toBitVec.toNat ≤ 122 →
      65 ≤ c.val.toBitVec.toNat → c.val.toBitVec.toNat ≤ 90 → False
    omega
  · simp only [Char.le_def, UInt32.le_def, BitVec.le_def] at h₁ h₂
    intro hc
    obtain ⟨ha, hb⟩ := hc
    simp only [Char.toNat, UInt32.toNat] at ha hb
    revert h₁ h₂ ha hb
    show 48 ≤ c.val.toBitVec.toNat → c.val.toBitVec.toNat ≤ 57 →
      65 ≤ c.val.toBitVec.toNat → c.val.toBitVec.toNat ≤ 90 → False
    omega
  · subst h
    decide

theorem map_toLower_ident (l : List Char)
    (h : ∀ c ∈ l, ('a' ≤ c ∧ c ≤ 'z') ∨ ('0' ≤ c ∧ c ≤ '9') ∨ c = '_') :
    l.map Char.toLower = l := by
  induction l with
  | nil => rfl
  | cons x xs ih =>
      rw [List.map_cons, toLower_ident_self x (h x (List.mem_cons_self _ _)),
        ih fun c hc => h c (List.mem_cons_of_mem _ hc)]

theorem all_ident_chars_bridge (r : List Char) :
    (!decide (∃ x ∈ r, isLowerAZ x = false ∧ isDigit09 x = false ∧ ¬x = '_')) =
      decide (∀ x ∈ r, isLowerAZ x = true ∨ isDigit09 x = true ∨ x = '_') := by
  rw [← decide_not]
  apply decide_eq_decide.mpr
  push_neg
  constructor
  · intro h x hx
    have := h x hx
    rcases hb : isLowerAZ x with _ | _
    · rcases hd : isDigit09 x with _ | _
      · exact Or.inr (Or.inr (this hb hd))
      · exact Or.inr (Or.inl rfl)
    · exact Or.inl rfl
  · intro h x hx h₁ h₂
    rcases h x hx with hc | hc | hc
    · rw [h₁] at hc
      exact absurd hc (by simp)
    · rw [h₂] at hc
      exact absurd hc (by simp)
    · exact hc

/-- The source's `isSimpleIdent` coincides with the amended spec reading
(`strings.ToLower` is the identity on strings that pass its character
checks). -/
theorem isSimpleIdent_eq_amended (s : String) :
    isSimpleIdent s = isSimpleIdentAmended s := by
  obtain ⟨l⟩ := s
  cases l with
  | nil => rfl
  | cons first rest =>
      show isSimpleIdent (String.mk (first :: rest)) =
        isSimpleIdentAmended (String.mk (first :: rest))
      by_cases h₁ : (isLowerAZ first ∨ first = '_')
      · by_cases h₂ : (rest.all fun c => isLowerAZ c ∨ isDigit09 c ∨ c = '_')
        · have hlow : toLowerStr (String.mk (first :: rest)) =
              String.mk (first :: rest) := by
            unfold toLowerStr
            congr 1
            apply map_toLower_ident
            intro c hc
            cases hc with
            | head =>
                rcases h₁ with hl | hu
                · exact Or.inl (by simpa [isLowerAZ] using hl)
                · exact Or.inr (Or.inr hu)
            | tail _ hm =>
                have := List.all_eq_true.mp h₂ c hm
                rcases (by simpa [isLowerAZ, isDigit09] using this :
                    ('a' ≤ c ∧ c ≤ 'z') ∨ ('0' ≤ c ∧ c ≤ '9') ∨ c = '_') with
                  hl | hd | hu
                · exact Or.inl hl
                · exact Or.inr (Or.inl hd)
                · exact Or.inr (Or.inr hu)
          simp only [isSimpleIdent, isSimpleIdentAmended, h₁, h₂, hlow]
          simp [decide_not]
        · simp only [isSimpleIdent, isSimpleIdentAmended, h₁, h₂]
          simp
      · simp [isSimpleIdent, isSimpleIdentAmended, h₁]

/-- C7 (amended): `quoteIdent` returns its argument unchanged exactly for
bare identifiers that start with a lowercase letter **or an underscore**,
continue with lowercase letters, digits or underscores, and are not
reserved words; otherwise it double-quotes, doubling embedded double
quotes; and `quoteLiteral` single-quotes, doubling embedded single
quotes. -/
theorem quoting_spec (s : String) :
    (quoteIdent s = s ↔ isSimpleIdentAmended s = true) ∧
    (quoteIdent s).data = (if isSimpleIdentAmended s then s.data
      else '"' :: s.data.flatMap (dub '"') ++ ['"']) ∧
    (quoteLiteral s).data = sq :: s.data.flatMap (dub sq) ++ [sq] := by
  have hsi := isSimpleIdent_eq_amended s
  refine ⟨?_, ?_, by simp [quoteLiteral, escDouble_eq_flatMap]⟩
  · constructor
    · intro heq
      by_contra hna
      have hns : isSimpleIdent s = false := by
        rw [hsi]
        exact Bool.not_eq_true _ ▸ hna
      have : quoteIdent s = String.mk ('"' :: escDouble '"' s.data ++ ['"']) := by
        unfold quoteIdent
        rw [hns]
        simp
      rw [this] at heq
      have hd := congrArg String.data heq
      have hlen := congrArg List.length hd
      simp only [List.length_cons, List.length_append] at hlen
      have := length_le_escDouble '"' s.data
      show False
      have hsd : (String.mk ('"' :: escDouble '"' s.data ++ ['"'])).data =
          '"' :: escDouble '"' s.data ++ ['"'] := rfl
      rw [hsd] at hd
      have : ('"' :: escDouble '"' s.data ++ ['"']).length = s.data.length :=
        congrArg List.length hd
      simp only [List.length_cons, List.length_append, List.length_cons,
        List.length_nil] at this
      have hge := length_le_escDouble '"' s.data
      omega
    · intro h
      unfold quoteIdent
      rw [hsi, h]
      simp
  · by_cases h : isSimpleIdentAmended s = true
    · unfold quoteIdent
      rw [hsi, h]
      simp
    · have hns : isSimpleIdent s = false := by
        rw [hsi]
        exact Bool.not_eq_true _ ▸ h
      unfold quoteIdent
      rw [hns]
      simp [Bool.not_eq_true _ ▸ h, escDouble_eq_flatMap]

/-- C7 counterexample: `"_foo"` passes `quoteIdent` unchanged although it is
not lowercase-start, refuting the claim's iff as stated. -/
theorem quoteIdent_claim_counterexample :
    quoteIdent "_foo" = "_foo" ∧ isSimpleIdentClaim "_foo" = false := by
  decide

/-! C8: the validator's type-change findings. -/

theorem precision_ne_notNull (obj a b obj' : String) :
    precisionWarning obj a b ≠ notNullWarning obj' := by
  unfold precisionWarning notNullWarning
  intro h
  have hd := congrArg String.data h
  simp [String.data_append] at hd

/-- C8: for an `AlterColumn` whose alteration changes the type,
`ValidateChanges` emits the precision-loss **warning** exactly when the old
type is numeric-family and the new type is string-family, and the
conversion-failure **error** exactly when the old type is string-family and
the new type is numeric-family; no other type-change combination produces
either finding.  Both are advisory strings in the returned lists. -/
theorem validateChanges_typechange (tn cn : String) (oc nc : Column)
    (alt : ColumnAlteration) (h : alt.typeChanged = true) :
    (precisionWarning (Change.alterColumn tn cn oc nc alt).objectName
        alt.oldType alt.newType ∈
        (ValidateChanges ⟨[.alterColumn tn cn oc nc alt]⟩).1 ↔
      (isNumericType alt.oldType ∧ isStringType alt.newType)) ∧
    (conversionError (Change.alterColumn tn cn oc nc alt).objectName
        alt.oldType alt.newType ∈
        (ValidateChanges ⟨[.alterColumn tn cn oc nc alt]⟩).2 ↔
      (isStringType alt.oldType ∧ isNumericType alt.newType)) := by
  constructor
  · simp only [ValidateChanges, List.flatMap_cons, List.flatMap_nil,
      List.append_nil, validateWarnings, h, if_true, if_pos]
    constructor
    · intro hm
      rcases List.mem_append.mp hm with hm₁ | hm₂
      · by_cases hc : (isNumericType alt.oldType ∧ isStringType alt.newType)
        · exact hc
        · rw [if_neg hc] at hm₁
          cases hm₁
      · exfalso
        by_cases hc : (alt.nullableChanged ∧ alt.newNullable = false)
        · rw [if_pos hc, List.mem_singleton] at hm₂
          exact precision_ne_notNull _ _ _ _ hm₂
        · rw [if_neg hc] at hm₂
          cases hm₂
    · intro hc
      apply List.mem_append.mpr
      left
      rw [if_pos hc]
      exact List.mem_singleton.mpr rfl
  · simp only [ValidateChanges, List.flatMap_cons, List.flatMap_nil,
      List.append_nil, validateErrors, h, if_true, if_pos]
    constructor
    · intro hm
      by_cases hc : (isStringType alt.oldType ∧ isNumericType alt.newType)
      · exact hc
      · rw [if_neg hc] at hm
        cases hm
    · intro hc
      rw [if_pos hc]
      exact List.mem_singleton.mpr rfl

/-- C8 witness: a concrete `integer → text` alteration, where the warning
is present and the error is absent. -/
theorem validateChanges_typechange_witness :
    typeAlt.typeChanged = true ∧
    ((precisionWarning (Change.alterColumn "users" "count" colId colId
          typeAlt).objectName typeAlt.oldType typeAlt.newType ∈
        (ValidateChanges ⟨[.alterColumn "users" "count" colId colId
          typeAlt]⟩).1 ↔
      (isNumericType typeAlt.oldType ∧ isStringType typeAlt.newType)) ∧
     (conversionError (Change.alterColumn "users" "count" colId colId
          typeAlt).objectName typeAlt.oldType typeAlt.newType ∈
        (ValidateChanges ⟨[.alterColumn "users" "count" colId colId
          typeAlt]⟩).2 ↔
      (isStringType typeAlt.oldType ∧ isNumericType typeAlt.newType))) :=
  ⟨rfl, validateChanges_typechange "users" "count" colId colId typeAlt rfl⟩

/-! C5: enum value diffing models only anchored additions. -/

theorem buildPos_find_isSome_iff {vs : List String} {v : String} :
    ∀ {i : Nat}, (SMap.find? (buildPos i vs) v).isSome = true ↔ v ∈ vs := by
  induction vs with
  | nil => intro i; simp [buildPos, SMap.find?]
  | cons w rest ih =>
      intro i
      by_cases hw : w = v
      · simp [buildPos, SMap.find?, hw]
      · show ((if w = v then some i else
          SMap.find? (buildPos (i + 1) rest) v)).isSome = true ↔ v ∈ w :: rest
        rw [if_neg hw, ih]
        constructor
        · exact fun h => List.mem_cons_of_mem _ h
        · intro h
          rcases List.mem_cons.mp h with h | h
          · exact absurd h.symm hw
          · exact h

theorem getD_of_drop_eq_cons {v : String} {vs : List String} :
    ∀ {L : List String} {i : Nat}, L.drop i = v :: vs → L.getD i "" = v := by
  intro L
  induction L with
  | nil => intro i h; simp at h
  | cons x xs ih =>
      intro i h
      cases i with
      | zero => simpa using congrArg (fun l => l.headD "") h
      | succ j =>
          rw [List.drop_succ_cons] at h
          simpa using ih h

theorem diffEnumValues_aux (name : String) (fvals : List String)
    (L : List String) :
    ∀ (vs : List String) (i : Nat) (prev : String), L.drop i = vs →
      (if i > 0 then L.getD (i - 1) "" else "") = prev →
      ((withIdx i vs).filterMap fun p =>
        if (SMap.find? (buildPos 0 fvals) p.2).isSome then none
        else some (.addEnumValue name p.2
          (if p.1 > 0 then L.getD (p.1 - 1) "" else ""))) =
      specEnumAdds name fvals vs prev := by
  intro vs
  induction vs with
  | nil => intro i prev _ _; rfl
  | cons v rest ih =>
      intro i prev hdrop hprev
      have hv : L.getD i "" = v := getD_of_drop_eq_cons hdrop
      have hdrop' : L.drop (i + 1) = rest := by
        rw [← List.tail_drop, hdrop]
        rfl
      have hprev' : (if i + 1 > 0 then L.getD (i + 1 - 1) "" else "") = v := by
        simpa using hv
      rw [withIdx, List.filterMap_cons]
      by_cases hmem : v ∈ fvals
      · rw [if_pos (by simpa [buildPos_find_isSome_iff] using hmem)]
        rw [ih (i + 1) v hdrop' hprev']
        simp [specEnumAdds, hmem]
      · rw [if_neg (by simpa [buildPos_find_isSome_iff] using hmem)]
        rw [ih (i + 1) v hdrop' hprev']
        simp only [specEnumAdds, hmem, if_neg, not_false_iff,
          List.singleton_append]
        congr 1
        rw [← hprev]

theorem specEnumAdds_count (name : String) (fvals : List String)
    (v : String) :
    ∀ (vs : List String) (prev : String), vs.Nodup →
      ((specEnumAdds name fvals vs prev).countP fun c => isAddValueOf c v) =
        if v ∈ vs ∧ v ∉ fvals then 1 else 0 := by
  intro vs
  induction vs with
  | nil => intro prev _; simp [specEnumAdds]
  | cons w rest ih =>
      intro prev hnd
      rw [List.nodup_cons] at hnd
      rw [specEnumAdds, List.countP_append, ih w hnd.2]
      by_cases hf : w ∈ fvals
      · rw [if_pos hf, List.countP_nil, Nat.zero_add]
        by_cases hw : w = v
        · subst hw
          rw [if_neg (fun h => h.2 hf), if_neg (fun h => h.2 hf)]
        · by_cases hv : v ∈ rest ∧ v ∉ fvals
          · rw [if_pos hv, if_pos ⟨List.mem_cons_of_mem _ hv.1, hv.2⟩]
          · rw [if_neg hv, if_neg (by
              rintro ⟨hv₁, hnf⟩
              rcases List.mem_cons.mp hv₁ with hv₂ | hv₂
              · exact hw hv₂.symm
              · exact hv ⟨hv₂, hnf⟩)]
      · rw [if_neg hf, List.countP_cons, List.countP_nil, Nat.zero_add]
        by_cases hw : w = v
        · subst hw
          have h1 : (isAddValueOf (Change.addEnumValue name w prev) w) =
              true := by simp [isAddValueOf]
          rw [h1, if_pos rfl, if_neg (fun h => hnd.1 h.1),
            if_pos ⟨List.mem_cons_self _ _, hf⟩]
        · have h1 : (isAddValueOf (Change.addEnumValue name w prev) v) =
              false := by simp [isAddValueOf, hw]
          rw [h1, if_neg (by simp), Nat.zero_add]
          by_cases hv : v ∈ rest ∧ v ∉ fvals
          · rw [if_pos hv, if_pos ⟨List.mem_cons_of_mem _ hv.1, hv.2⟩]
          · rw [if_neg hv, if_neg (by
              rintro ⟨hv₁, hnf⟩
              rcases List.mem_cons.mp hv₁ with hv₂ | hv₂
              · exact hw hv₂.symm
              · exact hv ⟨hv₂, hnf⟩)]

theorem specEnumAdds_mem (name : String) (fvals : List String) :
    ∀ (vs : List String) (prev : String) (c : Change),
      c ∈ specEnumAdds name fvals vs prev →
      ∃ v aft, c = .addEnumValue name v aft ∧ v ∈ vs ∧ v ∉ fvals := by
  intro vs
  induction vs with
  | nil => intro prev c h; cases h
  | cons w rest ih =>
      intro prev c h
      rw [specEnumAdds] at h
      rcases List.mem_append.mp h with h₁ | h₂
      · by_cases hf : w ∈ fvals
        · rw [if_pos hf] at h₁
          cases h₁
        · rw [if_neg hf, List.mem_singleton] at h₁
          exact ⟨w, prev, h₁, List.mem_cons_self _ _, hf⟩
      · obtain ⟨v, aft, hc, hv, hnf⟩ := ih w c h₂
        exact ⟨v, aft, hc, List.mem_cons_of_mem _ hv, hnf⟩

/-- C5: enum value diffing models only additions.  `diffEnumValues` equals
the spec's walk of `to`'s value list (one `AddEnumValue` per label absent
from `from`, anchored after the preceding label, empty anchor for the
first); with distinct labels each absent label is added exactly once; and
every emitted change is such an `AddEnumValue` — nothing is emitted for
removed or reordered labels. -/
theorem diffEnumValues_spec (f t : Enum) (hnd : t.values.Nodup) :
    diffEnumValues f t = specEnumAdds t.name f.values t.values "" ∧
    (∀ v : String,
      ((diffEnumValues f t).countP fun c => isAddValueOf c v) =
        if v ∈ t.values ∧ v ∉ f.values then 1 else 0) ∧
    ∀ c ∈ diffEnumValues f t,
      ∃ v aft, c = .addEnumValue t.name v aft ∧ v ∈ t.values ∧
        v ∉ f.values := by
  have heq : diffEnumValues f t = specEnumAdds t.name f.values t.values "" := by
    unfold diffEnumValues
    exact diffEnumValues_aux t.name f.values t.values t.values 0 "" rfl rfl
  refine ⟨heq, fun v => ?_, fun c hc => ?_⟩
  · rw [heq]
    exact specEnumAdds_count t.name f.values v t.values "" hnd
  · rw [heq] at hc
    exact specEnumAdds_mem t.name f.values t.values "" c hc

/-- C5 witness: the spec's anchor example —
`["pending","active"] → ["pending","active","deleted"]` yields exactly one
`AddEnumValue` with value `deleted` anchored after `active`. -/
theorem diffEnumValues_spec_witness :
    enumStatus3.values.Nodup ∧
    (diffEnumValues enumStatus enumStatus3 =
      specEnumAdds enumStatus3.name enumStatus.values enumStatus3.values "") ∧
    diffEnumValues enumStatus enumStatus3 =
      [.addEnumValue "status" "deleted" "active"] :=
  ⟨by decide, (diffEnumValues_spec enumStatus enumStatus3 (by decide)).1,
    by decide⟩

/-! C2: transactional `Apply` semantics. -/

theorem rendered_cons_of_empty {gen : Change → String} {c : Change}
    (h : gen c = "") (l : List Change) :
    rendered gen (c :: l) = rendered gen l := by
  simp [rendered, h]

theorem rendered_cons_of_nonempty {gen : Change → String} {c : Change}
    (h : ¬ gen c = "") (l : List Change) :
    rendered gen (c :: l) = (c, gen c) :: rendered gen l := by
  simp [rendered, h]

theorem applyLoop_all_ok (gen : Change → String) (db : DB) :
    ∀ (l : List Change) (hist : List String) (applied : List Change),
      (∀ j, j < (rendered gen l).length →
        db.execErr (hist ++ ((rendered gen l).map Prod.snd).take j)
          (((rendered gen l).map Prod.snd).getD j "") = none) →
      applyLoop gen db l hist applied =
        ⟨applied ++ (rendered gen l).map Prod.fst, [], none,
          hist ++ (rendered gen l).map Prod.snd⟩ := by
  intro l
  induction l with
  | nil =>
      intro hist applied _
      simp [applyLoop, rendered]
  | cons c restl ih =>
      intro hist applied hok
      by_cases hg : gen c = ""
      · rw [rendered_cons_of_empty hg] at hok ⊢
        simp only [applyLoop, hg, if_pos]
        exact ih hist applied hok
      · rw [rendered_cons_of_nonempty hg] at hok ⊢
        have h0 := hok 0 (Nat.succ_pos _)
        simp only [List.map_cons, List.take_zero, List.append_nil,
          List.getD_cons_zero] at h0
        simp only [applyLoop, hg, if_neg, not_false_iff, h0]
        rw [ih (hist ++ [gen c]) (applied ++ [c]) ?_]
        · simp
        · intro j hj
          have := hok (j + 1) (by simpa using Nat.succ_lt_succ hj)
          simpa [List.take_succ_cons, List.getD_cons_succ,
            List.append_assoc] using this

theorem applyLoop_first_fail (gen : Change → String) (db : DB) :
    ∀ (l : List Change) (hist : List String) (applied : List Change)
      (i : Nat) (e : String),
      i < (rendered gen l).length →
      (∀ j, j < i →
        db.execErr (hist ++ ((rendered gen l).map Prod.snd).take j)
          (((rendered gen l).map Prod.snd).getD j "") = none) →
      db.execErr (hist ++ ((rendered gen l).map Prod.snd).take i)
        (((rendered gen l).map Prod.snd).getD i "") = some e →
      applyLoop gen db l hist applied =
        ⟨applied ++ ((rendered gen l).map Prod.fst).take i,
          [⟨((rendered gen l).map Prod.fst).getD i noopAlter,
            ((rendered gen l).map Prod.snd).getD i "", e⟩],
          some ("failed to apply change: " ++ e),
          hist ++ ((rendered gen l).map Prod.snd).take (i + 1)⟩ := by
  intro l
  induction l with
  | nil =>
      intro hist applied i e hi _ _
      simp [rendered] at hi
  | cons c restl ih =>
      intro hist applied i e hi hs hf
      by_cases hg : gen c = ""
      · rw [rendered_cons_of_empty hg] at hi hs hf ⊢
        simp only [applyLoop, hg, if_pos]
        exact ih hist applied i e hi hs hf
      · rw [rendered_cons_of_nonempty hg] at hi hs hf ⊢
        cases i with
        | zero =>
            simp only [List.map_cons, List.take_zero, List.append_nil,
              List.getD_cons_zero] at hf
            simp only [applyLoop, hg, if_neg, not_false_iff, hf]
            simp
        | succ i' =>
            have h0 := hs 0 (Nat.succ_pos _)
            simp only [List.map_cons, List.take_zero, List.append_nil,
              List.getD_cons_zero] at h0
            simp only [applyLoop, hg, if_neg, not_false_iff, h0]
            rw [ih (hist ++ [gen c]) (applied ++ [c]) i' e
              (by simpa using Nat.lt_of_succ_lt_succ hi) ?_ ?_]
            · simp [List.take_succ_cons, List.getD_cons_succ]
            · intro j hj
              have := hs (j + 1) (Nat.succ_lt_succ hj)
              simpa [List.take_succ_cons, List.getD_cons_succ,
                List.append_assoc] using this
            · simpa [List.take_succ_cons, List.getD_cons_succ,
                List.append_assoc] using hf

/-- C2: transactional `Apply`.  An empty ChangeSet returns an empty,
successful result with no transaction opened.  Otherwise one transaction is
opened and the rendered statements run in input order: on `db`, whose first
failing rendered statement is the one at index `i` (error `e`), exactly one
`{Change, SQL, Error}` entry is recorded in `Failed`, execution stops after
that statement, a non-nil error is returned, and `Applied` holds exactly
the changes successfully executed before the failure (the transaction is
rolled back, not committed).  On `db₂`, where every statement succeeds, all
rendered statements run in input order and the transaction commits. -/
theorem apply_transactional_spec (gen : Change → String) (db db₂ : DB)
    (cs : ChangeSet) (i : Nat) (e : String)
    (hb : db.beginErr = none)
    (hi : i < (rendered gen cs.changes).length)
    (hs : ∀ j, j < i →
      db.execErr (((rendered gen cs.changes).map Prod.snd).take j)
        (((rendered gen cs.changes).map Prod.snd).getD j "") = none)
    (hf : db.execErr (((rendered gen cs.changes).map Prod.snd).take i)
      (((rendered gen cs.changes).map Prod.snd).getD i "") = some e)
    (hb₂ : db₂.beginErr = none)
    (he₂ : ∀ h s, db₂.execErr h s = none)
    (hc₂ : ∀ h, db₂.commitErr h = none) :
    Apply gen db (ChangeSet.mk []) =
      ⟨some ⟨[], []⟩, none, 0, [], false, false⟩ ∧
    Apply gen db cs =
      ⟨some ⟨((rendered gen cs.changes).map Prod.fst).take i,
          [⟨((rendered gen cs.changes).map Prod.fst).getD i noopAlter,
            ((rendered gen cs.changes).map Prod.snd).getD i "", e⟩]⟩,
        some ("failed to apply change: " ++ e), 1,
        ((rendered gen cs.changes).map Prod.snd).take (i + 1), false, true⟩ ∧
    Apply gen db₂ cs =
      ⟨some ⟨(rendered gen cs.changes).map Prod.fst, []⟩, none, 1,
        (rendered gen cs.changes).map Prod.snd, true, false⟩ := by
  have hne : cs.isEmpty = false := by
    unfold ChangeSet.isEmpty
    cases hcs : cs.changes with
    | nil => rw [hcs] at hi; simp [rendered] at hi
    | cons c l => simp
  refine ⟨by simp [Apply, ChangeSet.isEmpty], ?_, ?_⟩
  · unfold Apply
    rw [hne]
    simp only [Bool.false_eq_true, if_neg, not_false_iff, hb]
    rw [applyLoop_first_fail gen db cs.changes [] [] i e hi
      (by simpa using hs) (by simpa using hf)]
    simp
  · unfold Apply
    rw [hne]
    simp only [Bool.false_eq_true, if_neg, not_false_iff, hb₂]
    rw [applyLoop_all_ok gen db₂ cs.changes [] []
      (fun j hj => he₂ _ _)]
    simp [hc₂]

/-- C2 witness: a three-change set whose second rendered statement
(`DROP TABLE logs;`) is rejected: one `Failed` entry, a non-nil error,
`Applied` holding only the first change, execution stopping after the
second statement; the all-success oracle applies and commits all three. -/
theorem apply_transactional_spec_witness :
    Apply GenerateChange dbFailDropLogs (ChangeSet.mk []) =
      ⟨some ⟨[], []⟩, none, 0, [], false, false⟩ ∧
    Apply GenerateChange dbFailDropLogs csThree =
      ⟨some ⟨((rendered GenerateChange csThree.changes).map Prod.fst).take 1,
          [⟨((rendered GenerateChange csThree.changes).map
              Prod.fst).getD 1 noopAlter,
            ((rendered GenerateChange csThree.changes).map
              Prod.snd).getD 1 "", "permission denied"⟩]⟩,
        some ("failed to apply change: " ++ "permission denied"), 1,
        ((rendered GenerateChange csThree.changes).map Prod.snd).take 2,
        false, true⟩ ∧
    Apply GenerateChange dbAllOk csThree =
      ⟨some ⟨(rendered GenerateChange csThree.changes).map Prod.fst, []⟩,
        none, 1, (rendered GenerateChange csThree.changes).map Prod.snd,
        true, false⟩ :=
  apply_transactional_spec GenerateChange dbFailDropLogs dbAllOk csThree 1
    "permission denied" rfl (by decide) (by decide) (by decide) rfl
    (fun _ _ => rfl) (fun _ => rfl)

/-! C9: handling of unrenderable changes (`GenerateChange` = `""`). -/

theorem dryRunGo_ok (l : List Change) (h : ∀ c ∈ l, GenerateChange c ≠ "") :
    dryRunGo l = .ok (l.map GenerateChange) := by
  induction l with
  | nil => rfl
  | cons c rest ih =>
      have hc := h c (List.mem_cons_self _ _)
      simp only [dryRunGo, hc, if_neg, not_false_iff]
      rw [ih fun c' hc' => h c' (List.mem_cons_of_mem _ hc')]
      simp

theorem dryRunGo_error (l : List Change)
    (h : ∃ c ∈ l, GenerateChange c = "") :
    ∃ msg, dryRunGo l = .error msg := by
  induction l with
  | nil => obtain ⟨c, hc, _⟩ := h; cases hc
  | cons c rest ih =>
      by_cases hg : GenerateChange c = ""
      · exact ⟨"cannot generate SQL for change: " ++ c.description,
          by simp [dryRunGo, hg]⟩
      · obtain ⟨c', hc', hg'⟩ := h
        rcases List.mem_cons.mp hc' with he | he
        · exact absurd (he ▸ hg') hg
        · obtain ⟨msg, hmsg⟩ := ih ⟨c', he, hg'⟩
          refine ⟨msg, ?_⟩
          simp only [dryRunGo, hg, if_neg, not_false_iff, hmsg]

/-- C9 (amended): when `GenerateChange` returns the empty string, `DryRun`
fails loudly — it returns an error exactly when some change renders empty,
and otherwise returns the rendered statements in input order — but
transactional `Apply` does **not** fail: it silently skips every
unrenderable change, recording it in neither `Applied` nor `Failed` and
returning success. -/
theorem generateChange_empty_handling (db : DB) (cs ds : ChangeSet)
    (hb : db.beginErr = none)
    (he : ∀ h s, db.execErr h s = none)
    (hc : ∀ h, db.commitErr h = none)
    (hall : ∀ c ∈ ds.changes, GenerateChange c ≠ "") :
    ((∃ c ∈ cs.changes, GenerateChange c = "") ↔
      ∃ msg, DryRun cs = .error msg) ∧
    DryRun ds = .ok (ds.changes.map GenerateChange) ∧
    (Apply GenerateChange db cs).result =
      some ⟨(rendered GenerateChange cs.changes).map Prod.fst, []⟩ ∧
    (Apply GenerateChange db cs).error = none := by
  refine ⟨⟨fun h => dryRunGo_error cs.changes h, fun ⟨msg, hmsg⟩ => ?_⟩,
    dryRunGo_ok ds.changes hall, ?_, ?_⟩
  · by_contra hno
    push_neg at hno
    rw [show DryRun cs = dryRunGo cs.changes from rfl,
      dryRunGo_ok cs.changes hno] at hmsg
    cases hmsg
  all_goals
    by_cases hcs : cs.isEmpty
    · unfold Apply
      rw [hcs]
      have : cs.changes = [] := by
        unfold ChangeSet.isEmpty at hcs
        simpa using of_decide_eq_true hcs
      simp [this, rendered]
    · unfold Apply
      simp only [Bool.not_eq_true] at hcs
      rw [hcs]
      simp only [Bool.false_eq_true, if_neg, not_false_iff, hb]
      rw [applyLoop_all_ok GenerateChange db cs.changes [] []
        (fun j hj => he _ _)]
      simp [hc]

/-- C9 witness: `DryRun` errors on a set holding an unrenderable no-op
alteration and succeeds on a fully renderable set, while `Apply` succeeds
on the former, skipping the unrenderable change. -/
theorem generateChange_empty_handling_witness :
    ((∃ c ∈ (ChangeSet.mk [noopAlter]).changes, GenerateChange c = "") ↔
      ∃ msg, DryRun (ChangeSet.mk [noopAlter]) = .error msg) ∧
    DryRun csThree = .ok (csThree.changes.map GenerateChange) ∧
    (Apply GenerateChange dbAllOk (ChangeSet.mk [noopAlter])).result =
      some ⟨(rendered GenerateChange
        (ChangeSet.mk [noopAlter]).changes).map Prod.fst, []⟩ ∧
    (Apply GenerateChange dbAllOk (ChangeSet.mk [noopAlter])).error = none :=
  generateChange_empty_handling dbAllOk (ChangeSet.mk [noopAlter]) csThree
    rfl (fun _ _ => rfl) (fun _ => rfl) (by decide)

/-- C9 counterexample: the claim as stated is false — a no-op `AlterColumn`
renders to the empty string, yet transactional `Apply` neither fails nor
records it: it silently omits the change and reports success. -/
theorem apply_silently_skips_counterexample :
    GenerateChange noopAlter = "" ∧
    Apply GenerateChange dbAllOk (ChangeSet.mk [noopAlter]) =
      ⟨some ⟨[], []⟩, none, 1, [], true, false⟩ := by
  constructor
  · rfl
  · rfl

/-! C6: determinism of `Diff`. -/

theorem filterMap_perm_congr {α β : Type} {l₁ l₂ : List α}
    (f g : α → Option β) (hp : l₁.Perm l₂) (hfg : ∀ a ∈ l₂, g a = f a) :
    (l₁.filterMap f).Perm (l₂.filterMap g) := by
  rw [List.filterMap_congr hfg]
  exact hp.filterMap f

theorem flatMap_perm_congr {α β : Type} {l₁ l₂ : List α}
    (f g : α → List β) (hp : l₁.Perm l₂) (hfg : ∀ a ∈ l₂, g a = f a) :
    (l₁.flatMap f).Perm (l₂.flatMap g) := by
  rw [List.flatMap_congr hfg]
  exact hp.flatMap_right f

theorem charListLt_irrefl : ∀ l, charListLt l l = false := by
  intro l
  induction l with
  | nil => rfl
  | cons a as ih => simp [charListLt, lt_irrefl, ih]

theorem charListLt_trans :
    ∀ {l₁ l₂ l₃ : List Char}, charListLt l₁ l₂ = true →
      charListLt l₂ l₃ = true → charListLt l₁ l₃ = true := by
  intro l₁
  induction l₁ with
  | nil =>
      intro l₂ l₃ h₁₂ h₂₃
      cases l₂ with
      | nil => cases h₁₂
      | cons b bs =>
          cases l₃ with
          | nil => cases h₂₃
          | cons c cs => rfl
  | cons a as ih =>
      intro l₂ l₃ h₁₂ h₂₃
      cases l₂ with
      | nil => cases h₁₂
      | cons b bs =>
          cases l₃ with
          | nil => cases h₂₃
          | cons c cs =>
              simp only [charListLt] at h₁₂ h₂₃ ⊢
              by_cases hab : a < b
              · by_cases hbc : b < c
                · rw [if_pos (lt_trans hab hbc)]
                · rw [if_neg hbc] at h₂₃
                  by_cases hcb : c < b
                  · rw [if_pos hcb] at h₂₃
                    cases h₂₃
                  · have hbc2 : b ≤ c := le_of_not_lt hcb
                    rw [if_pos (lt_of_lt_of_le hab hbc2)]
              · rw [if_neg hab] at h₁₂
                by_cases hba : b < a
                · rw [if_pos hba] at h₁₂
                  cases h₁₂
                · rw [if_neg hba] at h₁₂
                  have hab2 : a = b :=
                    le_antisymm (le_of_not_lt hba) (le_of_not_lt hab)
                  subst hab2
                  by_cases hac : a < c
                  · rw [if_pos hac]
                  · rw [if_neg hac] at h₂₃ ⊢
                    by_cases hca : c < a
                    · rw [if_pos hca] at h₂₃
                      cases h₂₃
                    · rw [if_neg hca] at h₂₃ ⊢
                      exact ih h₁₂ h₂₃

theorem charListLt_trichotomy :
    ∀ (l₁ l₂ : List Char), charListLt l₁ l₂ = true ∨ l₁ = l₂ ∨
      charListLt l₂ l₁ = true := by
  intro l₁
  induction l₁ with
  | nil =>
      intro l₂
      cases l₂ with
      | nil => exact Or.inr (Or.inl rfl)
      | cons b bs => exact Or.inl rfl
  | cons a as ih =>
      intro l₂
      cases l₂ with
      | nil => exact Or.inr (Or.inr rfl)
      | cons b bs =>
          rcases lt_trichotomy a b with hab | hab | hab
          · exact Or.inl (by simp [charListLt, hab])
          · subst hab
            rcases ih bs with h | h | h
            · exact Or.inl (by simp [charListLt, lt_irrefl, h])
            · exact Or.inr (Or.inl (by rw [h]))
            · exact Or.inr (Or.inr (by simp [charListLt, lt_irrefl, h]))
          · exact Or.inr (Or.inr (by simp [charListLt, hab, lt_asymm hab]))

theorem keyLt_asymm {a b : String} (h : keyLt a b = true) :
    keyLt b a = false := by
  by_contra hc
  have hba : keyLt b a = true := by
    cases hx : keyLt b a
    · exact absurd hx hc
    · rfl
  have hirr := charListLt_trans h hba
  rw [charListLt_irrefl] at hirr
  cases hirr

theorem string_eq_of_data_eq {a b : String} (h : a.data = b.data) : a = b := by
  obtain ⟨la⟩ := a
  obtain ⟨lb⟩ := b
  exact congrArg String.mk (by simpa using h)

theorem keyLe_total (a b : String) : keyLe a b ∨ keyLe b a := by
  rcases charListLt_trichotomy a.data b.data with h | h | h
  · exact Or.inl (Or.inr h)
  · exact Or.inl (Or.inl (string_eq_of_data_eq h))
  · exact Or.inr (Or.inr h)

theorem keyLe_trans {a b c : String} (h₁ : keyLe a b) (h₂ : keyLe b c) :
    keyLe a c := by
  rcases h₁ with h₁ | h₁
  · subst h₁
    exact h₂
  · rcases h₂ with h₂ | h₂
    · subst h₂
      exact Or.inr h₁
    · exact Or.inr (charListLt_trans h₁ h₂)

theorem sortByKey_perm {α : Type} (m : SMap α) : (sortByKey m).Perm m :=
  List.perm_insertionSort _ m

theorem sortByKey_sorted {α : Type} (m : SMap α) :
    List.Sorted (fun p q : String × α => keyLe p.1 q.1) (sortByKey m) := by
  haveI : IsTotal (String × α) (fun p q => keyLe p.1 q.1) :=
    ⟨fun a b => keyLe_total a.1 b.1⟩
  haveI : IsTrans (String × α) (fun p q => keyLe p.1 q.1) :=
    ⟨fun a b c hab hbc => keyLe_trans hab hbc⟩
  exact List.sorted_insertionSort _ m

/-- Key-sorting is a canonical form: two legal (nodup-keys) association
lists with the same bindings sort to the same list. -/
theorem sortByKey_eq_of_perm {α : Type} {m₁ m₂ : SMap α} (hp : m₁.Perm m₂)
    (hnd : m₁.NodupKeys) : sortByKey m₁ = sortByKey m₂ := by
  haveI : IsAntisymm (String × α) (fun p q => keyLt p.1 q.1 = true) :=
    ⟨fun a b hab hba => by
      rw [keyLt_asymm hab] at hba
      cases hba⟩
  have hperm : (sortByKey m₁).Perm (sortByKey m₂) :=
    ((sortByKey_perm m₁).trans hp).trans (sortByKey_perm m₂).symm
  have hstrict : ∀ (m : SMap α), m.NodupKeys →
      List.Sorted (fun p q : String × α => keyLt p.1 q.1 = true)
        (sortByKey m) := by
    intro m hm
    have hnd2 : (sortByKey m).NodupKeys :=
      nodupKeys_of_perm (sortByKey_perm m).symm hm
    have hne : (sortByKey m).Pairwise fun p q : String × α => p.1 ≠ q.1 := by
      have hpm := hnd2
      unfold SMap.NodupKeys SMap.keys List.Nodup at hpm
      exact List.pairwise_map.mp hpm
    refine ((sortByKey_sorted m).and hne).imp fun h => ?_
    rcases h.1 with heq | hlt
    · exact absurd heq h.2
    · exact hlt
  exact List.eq_of_perm_of_sorted hperm (hstrict m₁ hnd)
    (hstrict m₂ (nodupKeys_of_perm hp hnd))

/-- A table is `MapEq` to its canonical form. -/
theorem tableMapEq_norm (t : Table) : Table.MapEq t (normTable t) :=
  ⟨rfl, rfl, (sortByKey_perm _).symm, (sortByKey_perm _).symm,
    (sortByKey_perm _).symm⟩

/-- Canonical table forms are equal exactly for representations of the same
Go table value. -/
theorem normTable_eq_iff_mapEq {t₁ t₂ : Table} (hw : t₁.WF) :
    normTable t₁ = normTable t₂ ↔ Table.MapEq t₁ t₂ := by
  constructor
  · intro h
    have hcn : sortByKey t₁.columns = sortByKey t₂.columns :=
      congrArg Table.columns h
    have hin : sortByKey t₁.indexes = sortByKey t₂.indexes :=
      congrArg Table.indexes h
    have hkn : sortByKey t₁.constraints = sortByKey t₂.constraints :=
      congrArg Table.constraints h
    have hnm0 := congrArg Table.name h
    have hsc0 := congrArg Table.schema h
    have hnm : t₁.name = t₂.name := hnm0
    have hsc : t₁.schema = t₂.schema := hsc0
    refine ⟨hnm, hsc, ?_, ?_, ?_⟩
    · have h2 : t₁.columns.Perm (sortByKey t₂.columns) := by
        rw [← hcn]
        exact (sortByKey_perm _).symm
      exact h2.trans (sortByKey_perm _)
    · have h2 : t₁.indexes.Perm (sortByKey t₂.indexes) := by
        rw [← hin]
        exact (sortByKey_perm _).symm
      exact h2.trans (sortByKey_perm _)
    · have h2 : t₁.constraints.Perm (sortByKey t₂.constraints) := by
        rw [← hkn]
        exact (sortByKey_perm _).symm
      exact h2.trans (sortByKey_perm _)
  · rintro ⟨hn, hs, hc, hi, hk⟩
    unfold normTable
    rw [hn, hs, sortByKey_eq_of_perm hc hw.1, sortByKey_eq_of_perm hi hw.2.1,
      sortByKey_eq_of_perm hk hw.2.2]

theorem find?_map_normPair (m : SMap Table) (n : String) :
    SMap.find? (m.map normPair) n = (SMap.find? m n).map normTable := by
  induction m with
  | nil => rfl
  | cons p rest ih =>
      obtain ⟨k, t⟩ := p
      by_cases hk : k = n
      · simp [SMap.find?, normPair, hk]
      · simpa [SMap.find?, normPair, hk] using ih

theorem nodupKeys_map_normPair (m : SMap Table) (h : m.NodupKeys) :
    SMap.NodupKeys (m.map normPair) := by
  unfold SMap.NodupKeys SMap.keys at h ⊢
  rw [List.map_map]
  exact h

theorem normChange_diffEnumValues (f t : Enum) :
    (diffEnumValues f t).map normChange = diffEnumValues f t := by
  unfold diffEnumValues
  rw [List.map_filterMap]
  apply List.filterMap_congr
  intro p _
  split <;> rfl

theorem normChange_diffEnums (f t : Schema) :
    (diffEnums f t).map normChange = diffEnums f t := by
  unfold diffEnums
  rw [List.map_append, List.map_filterMap, List.map_flatMap]
  congr 1
  · apply List.filterMap_congr
    intro p _
    split <;> rfl
  · apply List.flatMap_congr
    intro p _
    cases SMap.find? f.enums p.1 with
    | none => rfl
    | some fe => exact normChange_diffEnumValues fe p.2

theorem normChange_diffFunctions (f t : Schema) :
    (diffFunctions f t).map normChange = diffFunctions f t := by
  unfold diffFunctions
  rw [List.map_append, List.map_filterMap, List.map_flatMap]
  congr 1
  · apply List.filterMap_congr
    intro p _
    split <;> rfl
  · apply List.flatMap_congr
    intro p _
    cases SMap.find? f.functions p.1 with
    | none => rfl
    | some ff =>
        by_cases he : ff.equals p.2 = true
        · simp [he]
        · simp [he, normChange]

theorem normChange_diffColumns (f t : Table) :
    (diffColumns f t).map normChange = diffColumns f t := by
  unfold diffColumns
  rw [List.map_append, List.map_filterMap, List.map_flatMap]
  congr 1
  · apply List.filterMap_congr
    intro p _
    split <;> rfl
  · apply List.flatMap_congr
    intro p _
    cases SMap.find? f.columns p.1 with
    | none => rfl
    | some fc =>
        by_cases he : fc.equals p.2 = true
        · simp [he]
        · simp [he, normChange]

theorem normChange_diffIndexes (f t : Table) :
    (diffIndexes f t).map normChange = diffIndexes f t := by
  unfold diffIndexes
  rw [List.map_append, List.map_filterMap, List.map_flatMap]
  congr 1
  · apply List.filterMap_congr
    intro p _
    split <;> try rfl
    split <;> rfl
  · apply List.flatMap_congr
    intro p _
    split
    · rfl
    · cases SMap.find? f.indexes p.1 with
      | none => rfl
      | some fi =>
          by_cases he : fi.equals p.2 = true
          · simp [he]
          · simp [he, normChange]

theorem normChange_diffConstraints (f t : Table) :
    (diffConstraints f t).map normChange = diffConstraints f t := by
  unfold diffConstraints
  rw [List.map_append, List.map_filterMap, List.map_flatMap]
  congr 1
  · apply List.filterMap_congr
    intro p _
    split <;> rfl
  · apply List.flatMap_congr
    intro p _
    cases SMap.find? f.constraints p.1 with
    | none => rfl
    | some fc =>
        by_cases he : fc.equals p.2 = true
        · simp [he]
        · simp [he, normChange]

theorem normChange_diffTableContents (f t : Table) :
    (diffTableContents f t).map normChange = diffTableContents f t := by
  unfold diffTableContents
  rw [List.map_append, List.map_append, normChange_diffColumns,
    normChange_diffIndexes, normChange_diffConstraints]

theorem fullName_congr {t₁ t₂ : Table} (hn : t₁.name = t₂.name)
    (hs : t₁.schema = t₂.schema) : t₂.fullName = t₁.fullName := by
  unfold Table.fullName
  rw [hn, hs]

/-- Two representations of the same both-present Go tables diff to the same
table-content changes up to sequence order: the content loops range over
the nested column/index/constraint maps, whose iteration order Go also
randomizes. -/
theorem diffTableContents_mapEq_perm (ft₁ tt₁ ft₂ tt₂ : Table)
    (hwf : ft₁.WF) (hwt : tt₁.WF)
    (hf : Table.MapEq ft₁ ft₂) (ht : Table.MapEq tt₁ tt₂) :
    (diffTableContents ft₁ tt₁).Perm (diffTableContents ft₂ tt₂) := by
  obtain ⟨hfn, hfs, hfc, hfi, hfk⟩ := hf
  obtain ⟨htn, hts, htc, hti, htk⟩ := ht
  have hfull : tt₂.fullName = tt₁.fullName := fullName_congr htn hts
  unfold diffTableContents
  refine List.Perm.append (List.Perm.append ?_ ?_) ?_
  · unfold diffColumns
    refine List.Perm.append ?_ ?_
    · refine filterMap_perm_congr _ _ hfc fun p _ => ?_
      rw [hfull, ← find?_congr_perm htc hwt.1 p.1]
    · refine flatMap_perm_congr _ _ htc fun p _ => ?_
      rw [hfull, ← find?_congr_perm hfc hwf.1 p.1]
  · unfold diffIndexes
    refine List.Perm.append ?_ ?_
    · refine filterMap_perm_congr _ _ hfi fun p _ => ?_
      rw [← find?_congr_perm hti hwt.2.1 p.1]
    · refine flatMap_perm_congr _ _ hti fun p _ => ?_
      rw [← find?_congr_perm hfi hwf.2.1 p.1]
  · unfold diffConstraints
    refine List.Perm.append ?_ ?_
    · refine filterMap_perm_congr _ _ hfk fun p _ => ?_
      rw [hfull, ← find?_congr_perm htk hwt.2.2 p.1]
    · refine flatMap_perm_congr _ _ htk fun p _ => ?_
      rw [hfull, ← find?_congr_perm hfk hwf.2.2 p.1]

theorem dropTables_norm_factor (f t : SMap Table) :
    ((f.filterMap fun p => if (SMap.find? t p.1).isSome then none
        else some (Change.dropTable p.2)).map normChange) =
    ((f.map normPair).filterMap fun q =>
      if (SMap.find? (t.map normPair) q.1).isSome then none
      else some (Change.dropTable q.2)) := by
  rw [List.map_filterMap, List.filterMap_map]
  apply List.filterMap_congr
  intro p _
  show ((if (SMap.find? t p.1).isSome then none
      else some (Change.dropTable p.2)).map normChange) =
    (if (SMap.find? (t.map normPair) (normPair p).1).isSome then none
      else some (Change.dropTable (normPair p).2))
  rw [show (normPair p).1 = p.1 from rfl, find?_map_normPair,
    Option.isSome_map']
  split <;> rfl

theorem createTables_norm_perm (f t : SMap Table)
    (hwf : ∀ p ∈ f, Table.WF p.2) (hwt : ∀ p ∈ t, Table.WF p.2) :
    ((t.flatMap fun p =>
        match SMap.find? f p.1 with
        | none => [Change.createTable p.2]
        | some ft => diffTableContents ft p.2).map normChange).Perm
    ((t.map normPair).flatMap fun q =>
      match SMap.find? (f.map normPair) q.1 with
      | none => [Change.createTable q.2]
      | some nft => diffTableContents nft q.2) := by
  rw [List.map_flatMap, List.flatMap_map]
  apply List.Perm.flatMap_left
  intro p hp
  show ((match SMap.find? f p.1 with
      | none => [Change.createTable p.2]
      | some ft => diffTableContents ft p.2).map normChange).Perm
    (match SMap.find? (f.map normPair) (normPair p).1 with
      | none => [Change.createTable (normPair p).2]
      | some nft => diffTableContents nft (normPair p).2)
  rw [show (normPair p).1 = p.1 from rfl, find?_map_normPair]
  cases hfind : SMap.find? f p.1 with
  | none => exact List.Perm.refl _
  | some ft =>
      show ((diffTableContents ft p.2).map normChange).Perm
        (diffTableContents (normTable ft) (normPair p).2)
      rw [normChange_diffTableContents]
      exact diffTableContents_mapEq_perm ft p.2 (normTable ft)
        (normTable p.2) (hwf (p.1, ft) (mem_of_find?_eq_some hfind))
        (hwt p hp) (tableMapEq_norm ft) (tableMapEq_norm p.2)

/-- C6 (amended): `Diff` is total by construction — it returns a
`ChangeSet` for every pair of schema representations, with no error
outcome — and on equal inputs it emits the same `Change`s up to sequence
order.  "Equal inputs" means equal as Go values: each map's association
list a permutation binding for binding, including the nested
column/index/constraint maps of tables (`Schema.MapEq`); the emitted
changes are likewise compared as Go values, i.e. after canonicalizing the
nested maps inside the `Table` payloads of `CreateTable`/`DropTable`
changes (`normChange`, the identity on every other change).  The sequence
order itself follows the randomized map iteration order and is *not* an
invariant of the map value (`diff_order_counterexample`). -/
theorem diff_mapEq_perm (f₁ t₁ f₂ t₂ : Schema)
    (hwf₁ : f₁.WF) (hwt₁ : t₁.WF) (hwf₂ : f₂.WF) (hwt₂ : t₂.WF)
    (hf : f₁.MapEq f₂) (ht : t₁.MapEq t₂) :
    ((Diff f₁ t₁).changes.map normChange).Perm
      ((Diff f₂ t₂).changes.map normChange) := by
  obtain ⟨-, hft, hfe, hff⟩ := hf
  obtain ⟨-, htt, hte, htf⟩ := ht
  show ((diffEnums f₁ t₁ ++ diffTables f₁ t₁ ++ diffFunctions f₁ t₁).map
      normChange).Perm
    ((diffEnums f₂ t₂ ++ diffTables f₂ t₂ ++ diffFunctions f₂ t₂).map
      normChange)
  rw [List.map_append, List.map_append, List.map_append, List.map_append,
    normChange_diffEnums, normChange_diffEnums, normChange_diffFunctions,
    normChange_diffFunctions]
  refine List.Perm.append (List.Perm.append ?_ ?_) ?_
  · unfold diffEnums
    refine List.Perm.append ?_ ?_
    · refine filterMap_perm_congr _ _ hfe fun p _ => ?_
      rw [← find?_congr_perm hte hwt₁.2.1 p.1]
    · refine flatMap_perm_congr _ _ hte fun p _ => ?_
      rw [← find?_congr_perm hfe hwf₁.2.1 p.1]
  · unfold diffTables
    rw [List.map_append, List.map_append]
    refine List.Perm.append ?_ ?_
    · rw [dropTables_norm_factor f₁.tables t₁.tables,
        dropTables_norm_factor f₂.tables t₂.tables]
      refine filterMap_perm_congr _ _ hft fun q _ => ?_
      rw [← find?_congr_perm htt (nodupKeys_map_normPair _ hwt₁.1) q.1]
    · refine ((createTables_norm_perm f₁.tables t₁.tables hwf₁.2.2.2
        hwt₁.2.2.2).trans ?_).trans
        (createTables_norm_perm f₂.tables t₂.tables hwf₂.2.2.2
          hwt₂.2.2.2).symm
      refine flatMap_perm_congr _ _ htt fun q _ => ?_
      rw [← find?_congr_perm hft (nodupKeys_map_normPair _ hwf₁.1) q.1]
  · unfold diffFunctions
    refine List.Perm.append ?_ ?_
    · refine filterMap_perm_congr _ _ hff fun p _ => ?_
      rw [← find?_congr_perm htf hwt₁.2.2.1 p.1]
    · refine flatMap_perm_congr _ _ htf fun p _ => ?_
      rw [← find?_congr_perm hff hwf₁.2.2.1 p.1]

/-- C6 witness: two representations of the same pair of Go schemas —
reordering the top-level table map *and* the nested column map of `users`
— diff to the same changes up to order (compared as Go values). -/
theorem diff_mapEq_perm_witness :
    ((Diff schemaAB schemaW).changes.map normChange).Perm
      ((Diff schemaBAr schemaWr).changes.map normChange) :=
  diff_mapEq_perm schemaAB schemaW schemaBAr schemaWr
    (by decide) (by decide) (by decide) (by decide) (by decide) (by decide)

/-- C6 counterexample: two representations of the *same* Go schema value
(well-formed, equal as maps) produce different `ChangeSet` sequences, so
`Diff` is not deterministic in the claim's sense — Go randomizes map
iteration order, and the emitted sequence order follows it. -/
theorem diff_order_counterexample :
    Schema.WF schemaAB ∧ Schema.WF schemaBA ∧
    Schema.MapEq schemaEmpty schemaEmpty ∧ Schema.MapEq schemaAB schemaBA ∧
    Diff schemaEmpty schemaAB ≠ Diff schemaEmpty schemaBA := by
  refine ⟨by decide, by decide, by decide, by decide, by decide⟩

end Pgbranch